import Mathlib

/-!
Verification development for the runtime-discovery library ("where-is-it").

The repository discovers installed Java and Python runtimes, filters them by a
query, deduplicates and ranks them.  This file gives a shallow embedding of the
discovery-matching-ranking core in Lean and proves the frozen claims about it.

Modelling conventions:
* Rust `String` values manipulated character-by-character are embedded as
  `List Char`; `Jvm`/candidate record fields stay `String`.
* Fallible code (Rust panics via `unwrap`, integer-parse failures, I/O
  failures) is embedded with `Option`: a `none` result models a panic
  propagating out of the translated code.
* Filesystem and subprocess collaborators are embedded as explicit
  environment records holding the data they would hand to the core.
-/

namespace Java

/-- Character-list view of a Rust string. -/
abbrev Chars := List Char

/-- Embedding of `version.strip_prefix("1.").unwrap_or(version)` from
`compare_version_values`: drop one leading legacy "1." marker. -/
def stripLegacy : Chars → Chars
  | '1' :: '.' :: rest => rest
  | l => l

/-- Embedding of `.replace("_", ".")`; the pattern and replacement are single
characters, so the replacement is a character map. -/
def dotifyUnder (l : Chars) : Chars :=
  l.map (fun c => if c = '_' then '.' else c)

/-- Embedding of Rust `str::split(sep)` over characters: `""` yields `[""]`,
separators at the ends yield empty pieces. -/
def splitOnC (sep : Char) : Chars → List Chars
  | [] => [[]]
  | c :: cs =>
    if c = sep then [] :: splitOnC sep cs
    else
      match splitOnC sep cs with
      | [] => [[c]]
      | h :: t => (c :: h) :: t

/-- Embedding of Rust `str::split_inclusive(sep)`: pieces keep the trailing
separator, and the empty string yields no pieces. -/
def splitIncC (sep : Char) : Chars → List Chars
  | [] => []
  | c :: cs =>
    if c = sep then [c] :: splitIncC sep cs
    else
      match splitIncC sep cs with
      | [] => [[c]]
      | h :: t => (c :: h) :: t

/-- Decimal digit values of a character list, or `none` if some character is
not an ASCII digit. -/
def decDigits? (l : Chars) : Option (List Nat) :=
  l.mapM (fun c => if c.isDigit then some (c.toNat - 48) else none)

/-- Value of a big-endian list of decimal digits. -/
def digitsToNat (ds : List Nat) : Nat :=
  ds.foldl (fun a d => 10 * a + d) 0

/-- Embedding of Rust `str::parse::<i32>()`: an optional sign followed by at
least one ASCII digit, rejecting values outside the `i32` range. -/
def parse_i32 (l : Chars) : Option Int :=
  let signed : Int × Chars :=
    match l with
    | '+' :: rest => (1, rest)
    | '-' :: rest => (-1, rest)
    | _ => (1, l)
  match decDigits? signed.2 with
  | none => none
  | some ds =>
    if ds.isEmpty then none
    else
      let v : Nat := digitsToNat ds
      if signed.1 = 1 then
        if v ≤ 2147483647 then some (v : Int) else none
      else
        if v ≤ 2147483648 then some (-(v : Int)) else none

/-- The component loop of `compare_version_values`: the side that runs out of
components first is smaller; each present component must parse as an `i32`
(`parse::<i32>().unwrap()`), a parse failure being a panic (`none`). -/
def cmpComponents : List Chars → List Chars → Option Ordering
  | [], [] => some .eq
  | [], _ :: _ => some .lt
  | _ :: _, [] => some .gt
  | a :: l1, b :: l2 =>
    match parse_i32 a, parse_i32 b with
    | some x, some y =>
      if x > y then some .gt
      else if x < y then some .lt
      else cmpComponents l1 l2
    | _, _ => none

/-- Embedding of `compare_version_values` (src/java/mod.rs): strip a leading
"1.", turn underscores into dots, split on dots and compare componentwise. -/
def compare_version_values (version1 version2 : Chars) : Option Ordering :=
  cmpComponents
    (splitOnC '.' (dotifyUnder (stripLegacy version1)))
    (splitOnC '.' (dotifyUnder (stripLegacy version2)))

/-- A discovered JVM installation (src/java/mod.rs `struct Jvm`). -/
structure Jvm where
  version : String
  name : String
  architecture : String
  path : String
deriving DecidableEq

/-- The JVM-style query (src/java/mod.rs `struct MatchOptions`). -/
structure MatchOptions where
  name : Option String
  arch : Option String
  version : Option String
deriving DecidableEq

/-- Does a character list start with the legacy marker "1." ? -/
def startsLegacy : Chars → Bool
  | '1' :: '.' :: _ => true
  | _ => false

/-- Embedding of `compare_version.strip_suffix(".").unwrap_or(..)`. -/
def stripDotSuffix (l : Chars) : Chars :=
  match l.getLast? with
  | some '.' => l.dropLast
  | _ => l

/-- Concatenation of the first `n` pieces, absent pieces contributing `""`
(the `tmp_version.get(i).unwrap_or("")` loop). -/
def concatFirst : Nat → List Chars → Chars
  | 0, _ => []
  | _ + 1, [] => []
  | n + 1, h :: t => h ++ concatFirst n t

/-- Embedding of `get_compare_version`: truncate the candidate's version to
the number of dot-components the query version spells out, with the legacy
"1." stripped first when the query is a bare single component. -/
def get_compare_version (jvm : Jvm) (version : Chars) : Chars :=
  let version_count := version.count '.'
  let jvm_version := jvm.version.data
  let jvm_version :=
    if startsLegacy jvm_version && version.count '.' == 0 && !startsLegacy version then
      stripLegacy jvm_version
    else jvm_version
  let tmp_version := splitIncC '.' jvm_version
  stripDotSuffix (concatFirst (version_count + 1) tmp_version)

/-- Embedding of `filter_ver`: the version predicate of the JVM query.
A spec containing '+' is an inclusive lower bound; otherwise the truncated
candidate must compare equal. `none` models a panic inside the comparison. -/
def filter_ver (ver : Option String) (jvm : Jvm) : Option Bool :=
  match ver with
  | none => some true
  | some version =>
    let vc := version.data
    if vc.contains '+' then
      let sanitised := vc.filter (· != '+')
      let compare_jvm_version := get_compare_version jvm sanitised
      match compare_version_values compare_jvm_version sanitised with
      | none => none
      | some o => if o = .lt then some false else some true
    else
      let compare_jvm_version := get_compare_version jvm vc
      match compare_version_values vc compare_jvm_version with
      | none => none
      | some o => if o = .eq then some true else some false

/-- Embedding of `filter_arch`. -/
def filter_arch (arch : Option String) (jvm : Jvm) : Bool :=
  match arch with
  | none => true
  | some a => jvm.architecture == a

/-- Embedding of `filter_name`. -/
def filter_name (name : Option String) (jvm : Jvm) : Bool :=
  match name with
  | none => true
  | some n => jvm.name == n

/-- Embedding of `compare_boosting_architecture`: version comparison is taken
descending (`b` against `a`); only on equal versions does the host default
architecture break the tie. `none` models the version-parse panic. -/
def compare_boosting_architecture (a b : Jvm) (default_arch : String) :
    Option Ordering :=
  match compare_version_values b.version.data a.version.data with
  | none => none
  | some version_test =>
    if version_test = .eq then
      if b.architecture ≠ default_arch ∧ a.architecture = default_arch then
        some .lt
      else if b.architecture = default_arch ∧ a.architecture ≠ default_arch then
        some .gt
      else some version_test
    else some version_test

/-- Case-insensitive ASCII comparison (`eq_ignore_ascii_case`). -/
def eqIgnoreCase (a b : Chars) : Bool :=
  a.map Char.toLower == b.map Char.toLower

/-- Embedding of `trim_string`: strip one trailing "\r\n", else one "\n". -/
def trim_string (v : Chars) : Chars :=
  if ['\r', '\n'].isSuffixOf v then v.take (v.length - 2)
  else if ['\n'].isSuffixOf v then v.take (v.length - 1)
  else v

/-- Substring replacement (Rust `str::replace` with a multi-character
pattern): replace non-overlapping occurrences left to right. -/
def replaceSeq (pat repl : Chars) : Chars → Chars
  | [] => []
  | c :: cs =>
    if h : pat ≠ [] ∧ pat.isPrefixOf (c :: cs) then
      repl ++ replaceSeq pat repl ((c :: cs).drop pat.length)
    else
      c :: replaceSeq pat repl cs
termination_by l => l.length
decreasing_by
  · simp only [List.length_drop, List.length_cons]
    have : 1 ≤ pat.length := List.length_pos.mpr h.1
    omega
  · simp only [List.length_cons]
    omega

/-- One directory entry as the Linux enumeration sees it: file name, whether
it is a directory, whether it is a symlink (`read_link` succeeds), and the
parsed contents of its `release` file when it opens and parses. -/
structure DirEntry where
  fileName : String
  isDir : Bool
  isSymlink : Bool
  release : Option (List (String × String))

/-- Collaborator data consumed by a Linux discovery run: the stdout of
`uname -ps`, the parsed `/etc/os-release` properties (`none` when the file
cannot be opened), and each directory's entries (`none` models an I/O
failure of `read_dir`, panicking through `unwrap`). -/
structure Env where
  unameOut : String
  osRelease : Option (List (String × String))
  readDir : String → Option (List DirEntry)

/-- Host identification (src/java/mod.rs `struct OperatingSystem`). -/
structure OperatingSystem where
  name : String
  architecture : String
deriving DecidableEq

/-- Extra search paths (src/java/mod.rs `struct Config`); `run` always uses
the default (empty) configuration. -/
structure Config where
  paths : List String

/-- Embedding of the unix `get_operating_system`: outer `none` is a panic
(e.g. `parts.get(1).unwrap()` when `uname` printed no space), inner `none`
is a detection failure (unsupported platform, unrecognized architecture,
unreadable os-release file). -/
def get_operating_system (env : Env) : Option (Option OperatingSystem) :=
  let parts := splitOnC ' ' env.unameOut.data
  match parts.get? 0, parts.get? 1 with
  | some p0, some p1 =>
    let os := trim_string p0
    let arch := trim_string p1
    if eqIgnoreCase os "Darwin".data then
      let default_architecture :=
        if eqIgnoreCase arch "arm".data then "aarch64" else "x86_64"
      some (some { name := "macOS", architecture := default_architecture })
    else if eqIgnoreCase os "Linux".data then
      let default_architecture : Option String :=
        if eqIgnoreCase arch "x86_64".data then some "x86_64"
        else if eqIgnoreCase arch "i386".data then some "x86"
        else if eqIgnoreCase arch "i586".data then some "x86"
        else if eqIgnoreCase arch "i686".data then some "x86"
        else if eqIgnoreCase arch "aarch64".data then some "aarch64"
        else if eqIgnoreCase arch "arm64".data then some "arm64"
        else none
      match default_architecture with
      | none => some none
      | some da =>
        match env.osRelease with
        | none => some none
        | some props =>
          let name := ((props.lookup "ID").getD "").data.filter (· != '"')
          some (some { name := String.mk name, architecture := da })
    else some none
  | _, _ => none

/-- The fixed distribution-name table of the Linux `collate_jvms`. -/
def dir_lookup : List (String × String) :=
  [("ubuntu", "/usr/lib/jvm"), ("debian", "/usr/lib/jvm"),
   ("rhel", "/usr/lib/jvm"), ("centos", "/usr/lib/jvm"),
   ("fedora", "/usr/lib/jvm")]

/-- Processing of one directory entry inside the Linux `collate_jvms`:
outer `none` is the `parts.get(3).unwrap()` panic, inner `none` a skipped
entry (`continue` or not a plain directory). -/
def entry_jvm (pathDir : String) (e : DirEntry) : Option (Option Jvm) :=
  if e.isDir && !e.isSymlink then
    match e.release with
    | some props =>
      let version := ((props.lookup "JAVA_VERSION").getD "").data.filter (· != '"')
      let architecture := ((props.lookup "OS_ARCH").getD "").data.filter (· != '"')
      some (some { version := String.mk version,
                   architecture := String.mk architecture,
                   name := e.fileName,
                   path := pathDir ++ "/" ++ e.fileName })
    | none =>
      let parts := splitOnC '-' e.fileName.data
      if parts.length < 3 || !(parts.getD 1 [] == "java".data) then
        some none
      else
        match parts.get? 3 with
        | none => none
        | some a =>
          let version := parts.getD 1 []
          let architecture :=
            replaceSeq "i386".data "x86".data
              (replaceSeq "amd64".data "x86_64".data a)
          some (some { version := String.mk version,
                       architecture := String.mk architecture,
                       name := e.fileName,
                       path := pathDir ++ "/" ++ e.fileName })
  else
    some none

/-- `HashSet::insert` modelled as append-if-absent over full-record
equality, keeping first insertion order. -/
def insertUnique (l : List Jvm) (j : Jvm) : List Jvm :=
  if j ∈ l then l else l ++ [j]

/-- Entries of one directory folded through `entry_jvm` into the set. -/
def collate_dir (acc : List Jvm) (pathDir : String) :
    List DirEntry → Option (List Jvm)
  | [] => some acc
  | e :: es =>
    match entry_jvm pathDir e with
    | none => none
    | some none => collate_dir acc pathDir es
    | some (some j) => collate_dir (insertUnique acc j) pathDir es

/-- The per-path loop of `collate_jvms`. -/
def collate_paths (env : Env) (acc : List Jvm) :
    List String → Option (List Jvm)
  | [] => some acc
  | p :: ps =>
    match env.readDir p with
    | none => none
    | some es =>
      match collate_dir acc p es with
      | none => none
      | some acc2 => collate_paths env acc2 ps

/-- The comparator order used for the final sort, defined where every
pairwise comparison is defined. -/
def cbaLe (d : String) (a b : Jvm) : Prop :=
  ¬ (compare_boosting_architecture a b d = some Ordering.gt)

instance (d : String) : DecidableRel (cbaLe d) := by
  intro a b
  unfold cbaLe
  infer_instance

/-- The final sort of `collate_jvms`: `none` models the comparator panic on
unparseable versions (approximated as: some pairwise comparison is
undefined while at least two elements exist). -/
def sort_jvms (d : String) (l : List Jvm) : Option (List Jvm) :=
  if l.length ≤ 1 then some l
  else if l.all (fun a => l.all (fun b =>
      (compare_boosting_architecture a b d).isSome)) then
    some (List.insertionSort (cbaLe d) l)
  else none

/-- Embedding of the Linux `collate_jvms`; `none` is a panic escaping it.
On Linux every non-panicking outcome is `Ok`, so the `io::Result` layer
collapses to the value. -/
def collate_jvms (os : OperatingSystem) (cfg : Config) (env : Env) :
    Option (List Jvm) :=
  let path? := dir_lookup.lookup os.name
  if path?.isNone && cfg.paths.isEmpty then some []
  else
    match path? with
    | none => none
    | some dflt =>
      match collate_paths env [] (cfg.paths ++ [dflt]) with
      | none => none
      | some jvms => sort_jvms os.architecture jvms

/-- Per-candidate filtering as the iterator chain in `run` evaluates it:
architecture, then version (which may panic), then name. -/
def keep_jvm (args : MatchOptions) (jvm : Jvm) : Option Bool :=
  if filter_arch args.arch jvm then
    match filter_ver args.version jvm with
    | none => none
    | some false => some false
    | some true => some (filter_name args.name jvm)
  else some false

/-- The filter pass over the collated list. -/
def filter_jvms (args : MatchOptions) : List Jvm → Option (List Jvm)
  | [] => some []
  | j :: js =>
    match keep_jvm args j with
    | none => none
    | some b =>
      match filter_jvms args js with
      | none => none
      | some rest => some (if b then j :: rest else rest)

/-- Embedding of the top-level `run` on Linux: host detection failure yields
the empty list; a collate error would yield the empty list (`Err(_)`; on
Linux `collate_jvms` never returns `Err`, it panics instead, modelled by
`none` propagating). -/
def run (args : MatchOptions) (env : Env) : Option (List Jvm) :=
  match get_operating_system env with
  | none => none
  | some none => some []
  | some (some operating_system) =>
    match collate_jvms operating_system { paths := [] } env with
    | none => none
    | some jvms => filter_jvms args jvms

end Java

namespace VersionSpec

/-- Spec-side componentwise integer comparison over normalized component
sequences: the sequence that exhausts its components first is strictly less,
never equal. -/
def seqCompare : List Int → List Int → Ordering
  | [], [] => .eq
  | [], _ :: _ => .lt
  | _ :: _, [] => .gt
  | x :: xs, y :: ys =>
    if x < y then .lt else if y < x then .gt else seqCompare xs ys

/-- The normalized dot-components of a version string, as produced inside
`compare_version_values` (legacy "1." stripped, underscores to dots). -/
def normPieces (v : Java.Chars) : List Java.Chars :=
  Java.splitOnC '.' (Java.dotifyUnder (Java.stripLegacy v))

/-- Parse every component as an `i32`; `none` when some component fails. -/
def parseComponents : List Java.Chars → Option (List Int)
  | [] => some []
  | c :: t =>
    match Java.parse_i32 c, parseComponents t with
    | some v, some vs => some (v :: vs)
    | _, _ => none

/-- Re-attach separators to split pieces (all but the last piece get one, a
trailing empty piece disappears); proof bridge between `splitOnC` and
`splitIncC`. -/
def addSeps (sep : Char) : List Java.Chars → List Java.Chars
  | [] => []
  | [p] => if p = [] then [] else [p]
  | p :: q :: rest => (p ++ [sep]) :: addSeps sep (q :: rest)

end VersionSpec

namespace Python

/-- Modelled from the spec: the `Version` value of the external pep440
crate as the core consumes it — an ordered sequence of release components
plus pre-release and development flags (spec section 3; the crate is not
part of this repository). -/
structure PyVersion where
  release : List Nat
  isPre : Bool
  isDev : Bool
deriving DecidableEq

/-- A Python candidate (src/python/python.rs `struct PythonVersion`) with
its lazily-resolved memoized attributes embedded as already-resolved
fields: `none` records that the resolution (subprocess call, hashing)
fails for this candidate.  `realPath` is `canonicalize().unwrap_or(path)`
(total), `isSymlink` the filesystem fact `executable.is_symlink()`, and
`contentHash` the content fingerprint of `content_hash()` (modelled from
the spec: a hash of the executable's bytes; helpers.rs is not in src/). -/
structure PythonVersion where
  executable : String
  formatted_name : Option String
  version : Option PyVersion
  interpreter : Option String
  architecture : Option String
  keep_symlink : Bool
  isSymlink : Bool
  realPath : String
  contentHash : Option String
deriving DecidableEq

/-- The Python-style query (src/python/finder.rs `struct MatchOptions`). -/
structure MatchOptions where
  major : Option Nat
  minor : Option Nat
  patch : Option Nat
  pre : Option Bool
  dev : Option Bool
  name : Option String
  architecture : Option String
deriving DecidableEq

/-- Model of `Path::file_name`: the final normal component of the path
(empty and "." components skipped), `none` when the path ends in ".." or
has no component. -/
def file_name (p : String) : Option String :=
  let comps := (Java.splitOnC '/' p.data).filter
    (fun c => !(c == []) && !(c == ['.']))
  match comps.getLast? with
  | none => none
  | some c => if c = ['.', '.'] then none else some (String.mk c)

/-- Embedding of `PythonVersion::matches` (src/python/python.rs): name
check first (`none` models the `file_name().unwrap()` panic), then
architecture (resolution failure fails the query), then the version block —
a candidate whose version resolution fails matches nothing. -/
def matchesOpts (self : PythonVersion) (options : MatchOptions) : Option Bool :=
  let nameCheck : Option Bool :=
    match options.name with
    | none => some true
    | some name =>
      match file_name self.executable with
      | none => none
      | some fn => some (fn == name)
  match nameCheck with
  | none => none
  | some false => some false
  | some true =>
    let archOk : Bool :=
      match options.architecture with
      | none => true
      | some arch =>
        match self.architecture with
        | none => false
        | some a => a == arch
    if !archOk then some false
    else
      match self.version with
      | none => some false
      | some version =>
        some (
          (match options.major with
           | none => true
           | some m => version.release.get? 0 == some m)
          && (match options.minor with
              | none => true
              | some m => version.release.get? 1 == some m)
          && (match options.patch with
              | none => true
              | some m => version.release.get? 2 == some m)
          && (match options.dev with
              | none => true
              | some d => version.isDev == d)
          && (match options.pre with
              | none => true
              | some d => version.isPre == d))

/-- Numeric comparison as an `Ordering`. -/
def cmpN (x y : Nat) : Ordering :=
  if x < y then .lt else if y < x then .gt else .eq

/-- Lexicographic comparison of component lists. -/
def lexNat : List Nat → List Nat → Ordering
  | [], [] => .eq
  | [], _ :: _ => .lt
  | _ :: _, [] => .gt
  | x :: xs, y :: ys =>
    if x < y then .lt else if y < x then .gt else lexNat xs ys

/-- Release components with trailing zeros removed: pep440 compares
releases componentwise padding the shorter with zeros, which equals plain
lexicographic comparison of these canonical forms. -/
def canonRelease (l : List Nat) : List Nat :=
  (l.reverse.dropWhile (· == 0)).reverse

/-- Rank of a flag whose presence sorts first (pep440: a pre-release or dev
version sorts below the plain release). -/
def flagRank (b : Bool) : Nat :=
  cond b 0 1

/-- Modelled from the spec: the total order of the external pep440 crate as
the ranking consumes it — release compared with zero-padding, then
pre-release before plain, then dev before plain. -/
def verCmp (a b : PyVersion) : Ordering :=
  (lexNat (canonRelease a.release) (canonRelease b.release)).then
    ((cmpN (flagRank a.isPre) (flagRank b.isPre)).then
      (cmpN (flagRank a.isDev) (flagRank b.isDev)))

/-- The comparator of the final ranking sort in `Finder::deduplicate`:
`(b.version, b.len).cmp(&(a.version, a.len))` — version descending, then
path length descending.  The version default is irrelevant: the stage
guards that every compared candidate has a resolved version. -/
def finCmp (a b : PythonVersion) : Ordering :=
  (verCmp (b.version.getD ⟨[], false, false⟩)
      (a.version.getD ⟨[], false, false⟩)).then
    (cmpN b.executable.length a.executable.length)

/-- The `sort_by` order of the final ranking. -/
def finLe (a b : PythonVersion) : Prop :=
  finCmp a b ≠ .gt

instance : DecidableRel finLe := by
  intro a b
  unfold finLe
  infer_instance

/-- Modelled from the spec: provider-defined suffix specificity
(helpers.rs `suffix_preference` is not in src/) — a less specific,
unversioned executable name ranks before a version-suffixed alias. -/
def suffix_preference (p : String) : Nat :=
  match file_name p with
  | none => 1
  | some n => if n.data.any Char.isDigit then 1 else 0

/-- The cached pre-ordering key of `Finder::deduplicate`:
`(is_symlink, suffix_preference, -(len))`. -/
def preRank (p : PythonVersion) : Nat × Nat × Int :=
  (cond p.isSymlink 1 0, suffix_preference p.executable,
    -(p.executable.length : Int))

/-- Ascending lexicographic order on the pre-ordering key. -/
def preLe (a b : PythonVersion) : Prop :=
  (preRank a).1 < (preRank b).1
  ∨ ((preRank a).1 = (preRank b).1
      ∧ ((preRank a).2.1 < (preRank b).2.1
        ∨ ((preRank a).2.1 = (preRank b).2.1
            ∧ (preRank a).2.2 ≤ (preRank b).2.2)))

instance : DecidableRel preLe := by
  intro a b
  unfold preLe
  infer_instance

/-- The deduplication configuration of `Finder` (providers omitted: the
candidate list is passed explicitly). -/
structure Finder where
  resolve_symlinks : Bool
  same_file : Bool
  same_interpreter : Bool
deriving DecidableEq

/-- Embedding of `Finder::deduplicate_key`: interpreter path when
same-interpreter is disabled, else content hash when same-file is disabled,
else the canonical real path under resolve-symlinks (unless the candidate
keeps its symlink identity), else the literal executable path; `none`
models the `unwrap()` panics on failed interpreter/hash resolution. -/
def deduplicate_key (f : Finder) (python : PythonVersion) : Option String :=
  if !f.same_interpreter then python.interpreter
  else if !f.same_file then python.contentHash
  else if f.resolve_symlinks && !python.keep_symlink then some python.realPath
  else some python.executable

/-- Key every candidate in order; `none` when some key computation
panics. -/
def all_keys (f : Finder) : List PythonVersion →
    Option (List (String × PythonVersion))
  | [] => some []
  | c :: t =>
    match deduplicate_key f c, all_keys f t with
    | some k, some ks => some ((k, c) :: ks)
    | _, _ => none

/-- First-wins deduplication over the keyed list (the
`result.entry(key).or_insert(..)` loop, with the `HashMap` iteration
modelled in insertion order). -/
def dedup_first_aux (seen : List String) :
    List (String × PythonVersion) → List (String × PythonVersion)
  | [] => []
  | (k, c) :: t =>
    if k ∈ seen then dedup_first_aux seen t
    else (k, c) :: dedup_first_aux (k :: seen) t

/-- First occurrence of every key, in encounter order. -/
def dedup_first (ps : List (String × PythonVersion)) :
    List (String × PythonVersion) :=
  dedup_first_aux [] ps

/-- The final ranking over the collapsed representatives: `none` models the
`version().unwrap()` panic in the comparator, which executes whenever at
least two candidates are sorted and one lacks a resolved version. -/
def dedupRank (vals : List PythonVersion) : Option (List PythonVersion) :=
  if 2 ≤ vals.length ∧ vals.any (fun c => c.version.isNone) = true then
    none
  else
    some (List.insertionSort finLe vals)

/-- Embedding of `Finder::deduplicate`: pre-sort by the symlink/suffix/
length key (stable), collapse per dedup key keeping the first
representative (`none` modelling a failing `deduplicate_key` unwrap), and
rank by version then path length descending. -/
def deduplicate (f : Finder) (versions : List PythonVersion) :
    Option (List PythonVersion) :=
  match all_keys f (List.insertionSort preLe versions) with
  | none => none
  | some keyed => dedupRank ((dedup_first keyed).map Prod.snd)

/-- `Finder::deduplicate` with the `HashMap::into_values` iteration order
made explicit: `it` is the schedule in which the map yields the retained
entries.  The real `std::collections::HashMap` iterates in an arbitrary,
per-instance randomly seeded order, so the program is modelled by the
family of all `it` that permute their input; `deduplicate` above is the
`it = id` (insertion-order) member of the family. -/
def deduplicate_iter (f : Finder)
    (it : List (String × PythonVersion) → List (String × PythonVersion))
    (versions : List PythonVersion) : Option (List PythonVersion) :=
  match all_keys f (List.insertionSort preLe versions) with
  | none => none
  | some keyed => dedupRank ((it (dedup_first keyed)).map Prod.snd)

/-- The filtering loop of `Finder::find_all`; a panic inside `matches`
propagates. -/
def matches_filter (options : MatchOptions) :
    List PythonVersion → Option (List PythonVersion)
  | [] => some []
  | p :: ps =>
    match matchesOpts p options with
    | none => none
    | some b =>
      match matches_filter options ps with
      | none => none
      | some rest => some (if b then p :: rest else rest)

/-- Embedding of `Finder::find_all` over the raw candidate list the
providers produced. -/
def find_all (f : Finder) (options : MatchOptions)
    (pythons : List PythonVersion) : Option (List PythonVersion) :=
  match matches_filter options pythons with
  | none => none
  | some filtered => deduplicate f filtered

/-- The relabeling of candidates: changes only the cosmetic
`formatted_name`. -/
def relabel (g : PythonVersion → Option String) (c : PythonVersion) :
    PythonVersion :=
  { c with formatted_name := g c }

/-- The dedup identity key as claim C5 words it: the resolved interpreter
path when same-interpreter is disabled; else a content hash of the
executable's bytes when same-file is disabled; else the canonicalized real
path when resolve-symlinks is enabled and the candidate is not flagged to
preserve symlink identity; else the literal discovered path. -/
def claim_key (f : Finder) (c : PythonVersion) : Option String :=
  if f.same_interpreter = false then c.interpreter
  else if f.same_file = false then c.contentHash
  else if f.resolve_symlinks = true ∧ c.keep_symlink = false then
    some c.realPath
  else some c.executable

/-- The comparison key underlying `verCmp` (proof device). -/
def verKey (v : PyVersion) : List Nat × Nat × Nat :=
  (canonRelease v.release, flagRank v.isPre, flagRank v.isDev)

/-- Three-component lexicographic comparator on version keys
(proof device; `verCmp` is definitionally `key3Cmp` on `verKey`s). -/
def key3Cmp (p q : List Nat × Nat × Nat) : Ordering :=
  (lexNat p.1 q.1).then ((cmpN p.2.1 q.2.1).then (cmpN p.2.2 q.2.2))

/-- The all-unconstrained query (`MatchOptions::default`). -/
def noOpts : MatchOptions :=
  { major := none, minor := none, patch := none, pre := none,
    dev := none, name := none, architecture := none }

/-- A candidate with only executable, version and label set; the other
resolved attributes default to unresolved/non-symlink (used to state
concrete instances). -/
def samplePy (exe : String) (ver : Option PyVersion)
    (fname : Option String) : PythonVersion :=
  { executable := exe, formatted_name := fname, version := ver,
    interpreter := none, architecture := none, keep_symlink := false,
    isSymlink := false, realPath := exe, contentHash := none }

end Python


/-! ### Shared lemmas about the version comparison -/

theorem parseComponents_cons_some {c : Java.Chars} {t : List Java.Chars}
    {vs : List Int} (h : VersionSpec.parseComponents (c :: t) = some vs) :
    ∃ v ws, Java.parse_i32 c = some v ∧ VersionSpec.parseComponents t = some ws ∧
      vs = v :: ws := by
  rw [VersionSpec.parseComponents] at h
  cases hc : Java.parse_i32 c with
  | none => rw [hc] at h; exact absurd h (by simp)
  | some v =>
    cases ht : VersionSpec.parseComponents t with
    | none => rw [hc, ht] at h; exact absurd h (by simp)
    | some ws =>
      rw [hc, ht] at h
      simp only [Option.some.injEq] at h
      exact ⟨v, ws, rfl, rfl, h.symm⟩

theorem cmpComponents_eq_seqCompare :
    ∀ (l1 l2 : List Java.Chars) (v1 v2 : List Int),
      VersionSpec.parseComponents l1 = some v1 →
      VersionSpec.parseComponents l2 = some v2 →
      Java.cmpComponents l1 l2 = some (VersionSpec.seqCompare v1 v2) := by
  intro l1
  induction l1 with
  | nil =>
    intro l2 v1 v2 h1 h2
    rw [VersionSpec.parseComponents] at h1
    simp only [Option.some.injEq] at h1
    subst h1
    cases l2 with
    | nil =>
      rw [VersionSpec.parseComponents] at h2
      simp only [Option.some.injEq] at h2
      subst h2
      rfl
    | cons b t =>
      obtain ⟨v, ws, _, _, hv⟩ := parseComponents_cons_some h2
      subst hv
      rfl
  | cons a t1 ih =>
    intro l2 v1 v2 h1 h2
    obtain ⟨x, xs, ha, ht1, hv1⟩ := parseComponents_cons_some h1
    subst hv1
    cases l2 with
    | nil =>
      rw [VersionSpec.parseComponents] at h2
      simp only [Option.some.injEq] at h2
      subst h2
      rfl
    | cons b t2 =>
      obtain ⟨y, ys, hb, ht2, hv2⟩ := parseComponents_cons_some h2
      subst hv2
      rw [Java.cmpComponents, VersionSpec.seqCompare]
      simp only [ha, hb]
      by_cases hlt : x < y
      · rw [if_neg (by omega), if_pos hlt, if_pos hlt]
      · by_cases hgt : x > y
        · rw [if_pos hgt, if_neg hlt, if_pos hgt]
        · rw [if_neg hgt, if_neg hlt, if_neg hlt, if_neg (by omega)]
          exact ih t2 xs ys ht1 ht2

/-! ### Claim C1 -/

/-- Claim C1 (amended): for version strings whose normalized components each
parse as a 32-bit integer, `compare_version_values` is componentwise integer
comparison over the normalized sequences (a leading "1." component stripped,
underscore separators treated as dots), and the sequence that exhausts its
components first is strictly less, never equal; in particular
compare("1.8","8") = equal, compare("1.8.0_292","1.8.0.292") = equal and
compare("11","11.0.2") = less. -/
theorem C1_compare_is_componentwise :
    (∀ (a b : Java.Chars) (va vb : List Int),
      VersionSpec.parseComponents (VersionSpec.normPieces a) = some va →
      VersionSpec.parseComponents (VersionSpec.normPieces b) = some vb →
      Java.compare_version_values a b = some (VersionSpec.seqCompare va vb))
    ∧ Java.compare_version_values "1.8".data "8".data = some .eq
    ∧ Java.compare_version_values "1.8.0_292".data "1.8.0.292".data = some .eq
    ∧ Java.compare_version_values "11".data "11.0.2".data = some .lt := by
  refine ⟨fun a b va vb h1 h2 => ?_, by decide, by decide, by decide⟩
  exact cmpComponents_eq_seqCompare _ _ _ _ h1 h2

/-- Witness for C1: the general clause applied to the concrete strings
"10.4" and "9.30.1". -/
theorem C1_compare_is_componentwise_witness :
    Java.compare_version_values "10.4".data "9.30.1".data =
      some (VersionSpec.seqCompare [10, 4] [9, 30, 1]) :=
  C1_compare_is_componentwise.1 "10.4".data "9.30.1".data [10, 4] [9, 30, 1]
    (by decide) (by decide)

/-- Counterexample to C1 as stated: it quantifies over all version strings
with non-negative integer components, but at a component exceeding the
`i32` range the code panics in `parse::<i32>().unwrap()` (embedded `none`)
instead of returning the componentwise result (which would be greater). -/
theorem C1_compare_is_componentwise_counterexample :
    Java.compare_version_values "2147483648".data "0".data = none ∧
    VersionSpec.seqCompare [2147483648] [0] = .gt :=
  ⟨by decide, by decide⟩

/-! ### Lemmas about splitting and truncation -/

theorem splitOnC_ne_nil (sep : Char) (l : Java.Chars) :
    Java.splitOnC sep l ≠ [] := by
  cases l with
  | nil => simp [Java.splitOnC]
  | cons c cs =>
    rw [Java.splitOnC]
    by_cases h : c = sep
    · simp [h]
    · rw [if_neg h]
      cases Java.splitOnC sep cs <;> simp

theorem not_mem_of_mem_splitOnC {sep : Char} :
    ∀ {l p : Java.Chars}, p ∈ Java.splitOnC sep l → sep ∉ p := by
  intro l
  induction l with
  | nil =>
    intro p hp
    simp [Java.splitOnC] at hp
    simp [hp]
  | cons c cs ih =>
    intro p hp
    rw [Java.splitOnC] at hp
    by_cases h : c = sep
    · rw [if_pos h] at hp
      rcases List.mem_cons.mp hp with h1 | h1
      · simp [h1]
      · exact ih h1
    · rw [if_neg h] at hp
      cases hsp : Java.splitOnC sep cs with
      | nil => exact absurd hsp (splitOnC_ne_nil sep cs)
      | cons q t =>
        rw [hsp] at hp
        rcases List.mem_cons.mp hp with h1 | h1
        · subst h1
          intro hmem
          rcases List.mem_cons.mp hmem with h2 | h2
          · exact h h2.symm
          · exact ih (hsp ▸ List.mem_cons_self q t) h2
        · exact ih (hsp ▸ List.mem_cons.mpr (Or.inr h1))

theorem mem_of_mem_splitOnC {sep : Char} :
    ∀ {l p : Java.Chars} {c : Char},
      p ∈ Java.splitOnC sep l → c ∈ p → c ∈ l := by
  intro l
  induction l with
  | nil =>
    intro p c hp hc
    simp [Java.splitOnC] at hp
    subst hp
    exact absurd hc (List.not_mem_nil c)
  | cons d cs ih =>
    intro p c hp hc
    rw [Java.splitOnC] at hp
    by_cases h : d = sep
    · rw [if_pos h] at hp
      rcases List.mem_cons.mp hp with h1 | h1
      · subst h1
        exact absurd hc (List.not_mem_nil c)
      · exact List.mem_cons.mpr (Or.inr (ih h1 hc))
    · rw [if_neg h] at hp
      cases hsp : Java.splitOnC sep cs with
      | nil => exact absurd hsp (splitOnC_ne_nil sep cs)
      | cons q t =>
        rw [hsp] at hp
        rcases List.mem_cons.mp hp with h1 | h1
        · subst h1
          rcases List.mem_cons.mp hc with h2 | h2
          · exact List.mem_cons.mpr (Or.inl h2)
          · exact List.mem_cons.mpr
              (Or.inr (ih (hsp ▸ List.mem_cons_self q t) h2))
        · exact List.mem_cons.mpr
            (Or.inr (ih (hsp ▸ List.mem_cons.mpr (Or.inr h1)) hc))

theorem splitOnC_of_not_mem {sep : Char} :
    ∀ {l : Java.Chars}, sep ∉ l → Java.splitOnC sep l = [l] := by
  intro l
  induction l with
  | nil => intro; rfl
  | cons c cs ih =>
    intro h
    rw [Java.splitOnC,
      if_neg (fun hc => h (List.mem_cons.mpr (Or.inl hc.symm))),
      ih (fun hc => h (List.mem_cons.mpr (Or.inr hc)))]

theorem splitOnC_append_sep {sep : Char} :
    ∀ {p u : Java.Chars}, sep ∉ p →
      Java.splitOnC sep (p ++ sep :: u) = p :: Java.splitOnC sep u := by
  intro p
  induction p with
  | nil =>
    intro u _
    simp [Java.splitOnC]
  | cons c cs ih =>
    intro u h
    have hc : ¬ c = sep := fun hc => h (hc ▸ List.mem_cons_self c cs)
    rw [List.cons_append, Java.splitOnC, if_neg hc,
      ih (fun hm => h (List.mem_cons.mpr (Or.inr hm)))]

theorem splitIncC_eq_addSeps (sep : Char) :
    ∀ l : Java.Chars,
      Java.splitIncC sep l = VersionSpec.addSeps sep (Java.splitOnC sep l) := by
  intro l
  induction l with
  | nil => rfl
  | cons c cs ih =>
    rw [Java.splitIncC, Java.splitOnC]
    by_cases h : c = sep
    · rw [if_pos h, if_pos h]
      cases hsp : Java.splitOnC sep cs with
      | nil => exact absurd hsp (splitOnC_ne_nil sep cs)
      | cons q t =>
        rw [hsp] at ih
        rw [VersionSpec.addSeps, ih, h]
        simp
    · rw [if_neg h, if_neg h]
      cases hsp : Java.splitOnC sep cs with
      | nil => exact absurd hsp (splitOnC_ne_nil sep cs)
      | cons q t =>
        rw [hsp] at ih
        cases t with
        | nil =>
          by_cases hq : q = []
          · subst hq
            rw [VersionSpec.addSeps, if_pos rfl] at ih
            rw [ih, VersionSpec.addSeps, if_neg (by simp)]
          · rw [VersionSpec.addSeps, if_neg hq] at ih
            rw [ih, VersionSpec.addSeps, if_neg (by simp)]
        | cons q2 t2 =>
          rw [VersionSpec.addSeps] at ih
          rw [ih, VersionSpec.addSeps]
          simp

theorem stripDotSuffix_of_not_mem {l : Java.Chars} (h : '.' ∉ l) :
    Java.stripDotSuffix l = l := by
  rw [Java.stripDotSuffix]
  split
  · next heq => exact absurd (List.mem_of_getLast?_eq_some heq) h
  · rfl

theorem stripDotSuffix_concat (p : Java.Chars) :
    Java.stripDotSuffix (p ++ ['.']) = p := by
  rw [Java.stripDotSuffix]
  split
  · next heq => simp
  · next hne =>
    exact absurd (by rw [List.getLast?_append]; rfl) hne

theorem stripDotSuffix_append_cons {w : Java.Chars} (hw : w ≠ [])
    (p : Java.Chars) :
    Java.stripDotSuffix (p ++ '.' :: w) = p ++ '.' :: Java.stripDotSuffix w := by
  have hlast : (p ++ '.' :: w).getLast? = w.getLast? := by
    rw [List.getLast?_append]
    cases hl : w.getLast? with
    | none => exact absurd (List.getLast?_eq_none_iff.mp hl) hw
    | some c => simp [List.getLast?_cons, hl]
  rw [Java.stripDotSuffix, Java.stripDotSuffix, hlast]
  split
  · rw [List.dropLast_append_cons, List.dropLast_cons_of_ne_nil hw]
  · rfl

theorem concatFirst_nil : ∀ n : Nat, Java.concatFirst n [] = [] := by
  intro n
  cases n <;> rfl

theorem concatFirst_addSeps_ne_nil :
    ∀ (ps : List Java.Chars) (k : Nat), 1 ≤ k → ps ≠ [] →
      (∀ p ∈ ps, p ≠ []) →
      Java.concatFirst k (VersionSpec.addSeps '.' ps) ≠ [] := by
  intro ps k hk hps hne
  cases ps with
  | nil => exact absurd rfl hps
  | cons p t =>
    cases k with
    | zero => omega
    | succ n =>
      cases t with
      | nil =>
        rw [VersionSpec.addSeps, if_neg (hne p (List.mem_cons_self p [])),
          Java.concatFirst, concatFirst_nil, List.append_nil]
        exact hne p (List.mem_cons_self p [])
      | cons q t2 =>
        rw [VersionSpec.addSeps, Java.concatFirst]
        simp

theorem splitOn_stripDot_concatFirst :
    ∀ (ps : List Java.Chars) (k : Nat), 1 ≤ k →
      (∀ p ∈ ps, p ≠ [] ∧ '.' ∉ p) → ps ≠ [] →
      Java.splitOnC '.'
          (Java.stripDotSuffix (Java.concatFirst k (VersionSpec.addSeps '.' ps)))
        = ps.take k
      ∧ ∀ c ∈ Java.stripDotSuffix
            (Java.concatFirst k (VersionSpec.addSeps '.' ps)),
          c = '.' ∨ ∃ p ∈ ps, c ∈ p := by
  intro ps
  induction ps with
  | nil =>
    intro k _ _ hps
    exact absurd rfl hps
  | cons p t ih =>
    intro k hk hcond _
    obtain ⟨hpne, hpdot⟩ := hcond p (List.mem_cons_self p t)
    cases t with
    | nil =>
      rw [VersionSpec.addSeps, if_neg hpne]
      cases k with
      | zero => omega
      | succ n =>
        rw [Java.concatFirst, concatFirst_nil, List.append_nil]
        refine ⟨?_, ?_⟩
        · rw [stripDotSuffix_of_not_mem hpdot, splitOnC_of_not_mem hpdot]
          simp
        · intro c hc
          rw [stripDotSuffix_of_not_mem hpdot] at hc
          exact Or.inr ⟨p, List.mem_cons_self p [], hc⟩
    | cons q t2 =>
      rw [VersionSpec.addSeps]
      cases k with
      | zero => omega
      | succ n =>
        rw [Java.concatFirst]
        cases n with
        | zero =>
          rw [Java.concatFirst, List.append_nil, stripDotSuffix_concat]
          refine ⟨?_, ?_⟩
          · rw [splitOnC_of_not_mem hpdot]
            simp
          · intro c hc
            exact Or.inr ⟨p, List.mem_cons_self p (q :: t2), hc⟩
        | succ m =>
          have hw : Java.concatFirst (m + 1) (VersionSpec.addSeps '.' (q :: t2)) ≠ [] :=
            concatFirst_addSeps_ne_nil _ _ (by omega) (by simp)
              (fun r hr => (hcond r (List.mem_cons.mpr (Or.inr hr))).1)
          have hassoc :
              (p ++ ['.']) ++
                  Java.concatFirst (m + 1) (VersionSpec.addSeps '.' (q :: t2))
                = p ++ '.' ::
                    Java.concatFirst (m + 1) (VersionSpec.addSeps '.' (q :: t2)) := by
            simp
          rw [hassoc, stripDotSuffix_append_cons hw p]
          obtain ⟨ih1, ih2⟩ := ih (m + 1) (by omega)
            (fun r hr => hcond r (List.mem_cons.mpr (Or.inr hr))) (by simp)
          refine ⟨?_, ?_⟩
          · rw [splitOnC_append_sep hpdot, ih1]
            rfl
          · intro c hc
            rcases List.mem_append.mp hc with h1 | h1
            · exact Or.inr ⟨p, List.mem_cons_self p (q :: t2), h1⟩
            · rcases List.mem_cons.mp h1 with h2 | h2
              · exact Or.inl h2
              · rcases ih2 c h2 with h3 | ⟨r, hr, hcr⟩
                · exact Or.inl h3
                · exact Or.inr ⟨r, List.mem_cons.mpr (Or.inr hr), hcr⟩

theorem startsLegacy_shape {w : Java.Chars} (h : Java.startsLegacy w = true) :
    ∃ rest, w = '1' :: '.' :: rest := by
  unfold Java.startsLegacy at h
  split at h
  · next rest => exact ⟨rest, rfl⟩
  · exact absurd h (by simp)

theorem startsLegacy_splitOn {w : Java.Chars} (h : Java.startsLegacy w = true) :
    ∃ t, Java.splitOnC '.' w = ['1'] :: t ∧ t ≠ [] := by
  obtain ⟨rest, hw⟩ := startsLegacy_shape h
  subst hw
  refine ⟨Java.splitOnC '.' rest, ?_, splitOnC_ne_nil '.' rest⟩
  rw [Java.splitOnC, if_neg (by decide), Java.splitOnC, if_pos rfl]

theorem startsLegacy_of_splitOn :
    ∀ {w : Java.Chars} {t : List Java.Chars},
      Java.splitOnC '.' w = ['1'] :: t → t ≠ [] →
      Java.startsLegacy w = true := by
  intro w t hsp htne
  cases w with
  | nil =>
    rw [Java.splitOnC] at hsp
    simp at hsp
  | cons c cs =>
    rw [Java.splitOnC] at hsp
    by_cases hc : c = '.'
    · rw [if_pos hc] at hsp
      simp at hsp
    · rw [if_neg hc] at hsp
      cases hsc : Java.splitOnC '.' cs with
      | nil => exact absurd hsc (splitOnC_ne_nil '.' cs)
      | cons h2 t2 =>
        rw [hsc] at hsp
        have hhd : c :: h2 = ['1'] := (List.cons.injEq _ _ _ _ ▸ hsp).1
        have htl : t2 = t := (List.cons.injEq _ _ _ _ ▸ hsp).2
        have hc1 : c = '1' := (List.cons.injEq _ _ _ _ ▸ hhd).1
        have hh2 : h2 = [] := (List.cons.injEq _ _ _ _ ▸ hhd).2
        subst hc1
        cases cs with
        | nil =>
          rw [Java.splitOnC] at hsc
          simp at hsc
          subst htl
          exact absurd hsc.2 htne
        | cons d cs2 =>
          rw [Java.splitOnC] at hsc
          by_cases hd : d = '.'
          · subst hd
            rfl
          · rw [if_neg hd] at hsc
            cases hsc2 : Java.splitOnC '.' cs2 with
            | nil => exact absurd hsc2 (splitOnC_ne_nil '.' cs2)
            | cons h3 t3 =>
              rw [hsc2] at hsc
              have : d :: h3 = h2 := (List.cons.injEq _ _ _ _ ▸ hsc).1
              rw [hh2] at this
              exact absurd this (by simp)

theorem stripLegacy_of_not {w : Java.Chars} (h : Java.startsLegacy w = false) :
    Java.stripLegacy w = w := by
  unfold Java.stripLegacy
  split
  · next heq => simp [Java.startsLegacy] at h
  · rfl

theorem dotifyUnder_of_not_mem {l : Java.Chars} (h : '_' ∉ l) :
    Java.dotifyUnder l = l := by
  induction l with
  | nil => rfl
  | cons c cs ih =>
    rw [Java.dotifyUnder, List.map_cons,
      if_neg (fun hc => h (List.mem_cons.mpr (Or.inl hc.symm)))]
    rw [Java.dotifyUnder] at ih
    rw [ih (fun hm => h (List.mem_cons.mpr (Or.inr hm)))]

theorem parseComponents_take :
    ∀ (ps : List Java.Chars) (vs : List Int) (k : Nat),
      VersionSpec.parseComponents ps = some vs →
      VersionSpec.parseComponents (ps.take k) = some (vs.take k) := by
  intro ps
  induction ps with
  | nil =>
    intro vs k h
    rw [VersionSpec.parseComponents] at h
    simp only [Option.some.injEq] at h
    subst h
    simp [VersionSpec.parseComponents]
  | cons p t ih =>
    intro vs k h
    obtain ⟨v, ws, hv, hws, hvs⟩ := parseComponents_cons_some h
    subst hvs
    cases k with
    | zero => simp [VersionSpec.parseComponents]
    | succ n =>
      rw [List.take_succ_cons, List.take_succ_cons,
        VersionSpec.parseComponents, hv, ih ws n hws]

theorem parse_i32_nil : Java.parse_i32 [] = none := by decide

theorem parseComponents_ne_nil {ps : List Java.Chars} {vs : List Int}
    (h : VersionSpec.parseComponents ps = some vs) :
    ∀ p ∈ ps, p ≠ [] := by
  induction ps generalizing vs with
  | nil => intro p hp; exact absurd hp (List.not_mem_nil p)
  | cons q t ih =>
    intro p hp
    obtain ⟨v, ws, hv, hws, _⟩ := parseComponents_cons_some h
    rcases List.mem_cons.mp hp with h1 | h1
    · subst h1
      intro hnil
      rw [hnil, parse_i32_nil] at hv
      exact absurd hv (by simp)
    · exact ih hws p h1

theorem seqCompare_swap :
    ∀ a b : List Int,
      VersionSpec.seqCompare a b = (VersionSpec.seqCompare b a).swap := by
  intro a
  induction a with
  | nil =>
    intro b
    cases b <;> rfl
  | cons x xs ih =>
    intro b
    cases b with
    | nil => rfl
    | cons y ys =>
      rw [VersionSpec.seqCompare, VersionSpec.seqCompare]
      by_cases h1 : x < y
      · rw [if_pos h1, if_neg (by omega), if_pos h1]
        rfl
      · by_cases h2 : y < x
        · rw [if_neg h1, if_pos h2, if_pos h2]
          rfl
        · rw [if_neg h1, if_neg h2, if_neg h2, if_neg h1]
          exact ih ys

theorem get_compare_version_pieces (jvm : Java.Jvm) (s : Java.Chars)
    (hleg : Java.startsLegacy jvm.version.data = false)
    (hpieces : ∀ p ∈ Java.splitOnC '.' jvm.version.data, p ≠ []) :
    Java.splitOnC '.' (Java.get_compare_version jvm s)
        = (Java.splitOnC '.' jvm.version.data).take (s.count '.' + 1)
    ∧ Java.startsLegacy (Java.get_compare_version jvm s) = false
    ∧ ∀ c ∈ Java.get_compare_version jvm s, c = '.' ∨ c ∈ jvm.version.data := by
  have hcond : ∀ p ∈ Java.splitOnC '.' jvm.version.data, p ≠ [] ∧ '.' ∉ p :=
    fun p hp => ⟨hpieces p hp, not_mem_of_mem_splitOnC hp⟩
  have hgcv : Java.get_compare_version jvm s
      = Java.stripDotSuffix (Java.concatFirst (s.count '.' + 1)
          (VersionSpec.addSeps '.' (Java.splitOnC '.' jvm.version.data))) := by
    unfold Java.get_compare_version
    simp only [hleg, Bool.false_and, Bool.false_eq_true, if_false,
      splitIncC_eq_addSeps]
  obtain ⟨h1, h2⟩ := splitOn_stripDot_concatFirst
    (Java.splitOnC '.' jvm.version.data) (s.count '.' + 1) (by omega) hcond
    (splitOnC_ne_nil '.' jvm.version.data)
  rw [hgcv]
  refine ⟨h1, ?_, ?_⟩
  · by_contra hsl
    have hsl' : Java.startsLegacy
        (Java.stripDotSuffix (Java.concatFirst (s.count '.' + 1)
          (VersionSpec.addSeps '.' (Java.splitOnC '.' jvm.version.data)))) = true := by
      cases hb : Java.startsLegacy (Java.stripDotSuffix (Java.concatFirst (s.count '.' + 1)
          (VersionSpec.addSeps '.' (Java.splitOnC '.' jvm.version.data)))) with
      | true => rfl
      | false => exact absurd hb hsl
    obtain ⟨t, ht, htne⟩ := startsLegacy_splitOn hsl'
    rw [h1] at ht
    cases hv : Java.splitOnC '.' jvm.version.data with
    | nil => exact absurd hv (splitOnC_ne_nil '.' jvm.version.data)
    | cons p0 ps2 =>
      rw [hv, List.take_succ_cons] at ht
      have hp0 : p0 = ['1'] := (List.cons.injEq _ _ _ _ ▸ ht).1
      have htt : List.take (s.count '.') ps2 = t := (List.cons.injEq _ _ _ _ ▸ ht).2
      have hps2 : ps2 ≠ [] := by
        intro hnil
        rw [hnil] at htt
        simp at htt
        exact htne htt
      cases hps2' : ps2 with
      | nil => exact absurd hps2' hps2
      | cons q qs =>
        have : Java.startsLegacy jvm.version.data = true :=
          startsLegacy_of_splitOn (hv.trans (by rw [hp0, hps2'])) (by simp)
        rw [this] at hleg
        exact absurd hleg (by simp)
  · intro c hc
    rcases h2 c hc with h | ⟨p, hp, hcp⟩
    · exact Or.inl h
    · exact Or.inr (mem_of_mem_splitOnC hp hcp)

theorem filter_ver_some (version : String) (jvm : Java.Jvm) :
    Java.filter_ver (some version) jvm =
      if version.data.contains '+' then
        match Java.compare_version_values
            (Java.get_compare_version jvm (version.data.filter (· != '+')))
            (version.data.filter (· != '+')) with
        | none => none
        | some o => if o = .lt then some false else some true
      else
        match Java.compare_version_values version.data
            (Java.get_compare_version jvm version.data) with
        | none => none
        | some o => if o = .eq then some true else some false := rfl

/-! ### Claim C2 -/

/-- Claim C2 (amended): for a candidate version and a version spec in plain
dotted-decimal form (no legacy "1." marker, no underscores, components
parsing as 32-bit integers), a spec carrying the minimum marker "+" is
satisfied iff the candidate truncated to the spec's component count compares
greater-or-equal, and a bare spec is satisfied iff they compare equal over
the spec's depth; in particular satisfiesSpec("21.0.1","17+") = true,
satisfiesSpec("11","17+") = false and satisfiesSpec("11.2","11") = true. -/
theorem C2_satisfies_spec_truncated :
    (∀ (jvm : Java.Jvm) (s : Java.Chars) (vcand vs : List Int),
      Java.startsLegacy jvm.version.data = false →
      '_' ∉ jvm.version.data →
      Java.startsLegacy s = false →
      '_' ∉ s → '+' ∉ s →
      VersionSpec.parseComponents (Java.splitOnC '.' jvm.version.data)
        = some vcand →
      VersionSpec.parseComponents (Java.splitOnC '.' s) = some vs →
      Java.filter_ver (some (String.mk (s ++ ['+']))) jvm
          = some (VersionSpec.seqCompare (vcand.take (s.count '.' + 1)) vs
              != .lt)
      ∧ Java.filter_ver (some (String.mk s)) jvm
          = some (VersionSpec.seqCompare (vcand.take (s.count '.' + 1)) vs
              == .eq))
    ∧ Java.filter_ver (some "17+")
        { version := "21.0.1", name := "", architecture := "", path := "" }
        = some true
    ∧ Java.filter_ver (some "17+")
        { version := "11", name := "", architecture := "", path := "" }
        = some false
    ∧ Java.filter_ver (some "11")
        { version := "11.2", name := "", architecture := "", path := "" }
        = some true := by
  refine ⟨?_, by decide, by decide, by decide⟩
  intro jvm s vcand vs hlegv hunder hlegs hunders hplus hpv hps
  have hpieces : ∀ p ∈ Java.splitOnC '.' jvm.version.data, p ≠ [] :=
    parseComponents_ne_nil hpv
  obtain ⟨hb1, hb2, hb3⟩ := get_compare_version_pieces jvm s hlegv hpieces
  have hund_gcv : '_' ∉ Java.get_compare_version jvm s := by
    intro hmem
    rcases hb3 '_' hmem with h | h
    · exact absurd h (by decide)
    · exact hunder h
  have hcvv1 : Java.compare_version_values (Java.get_compare_version jvm s) s
      = some (VersionSpec.seqCompare (vcand.take (s.count '.' + 1)) vs) := by
    unfold Java.compare_version_values
    rw [stripLegacy_of_not hb2, dotifyUnder_of_not_mem hund_gcv,
      stripLegacy_of_not hlegs, dotifyUnder_of_not_mem hunders, hb1]
    exact cmpComponents_eq_seqCompare _ _ _ _
      (parseComponents_take _ _ _ hpv) hps
  have hcvv2 : Java.compare_version_values s (Java.get_compare_version jvm s)
      = some ((VersionSpec.seqCompare (vcand.take (s.count '.' + 1)) vs).swap)
      := by
    unfold Java.compare_version_values
    rw [stripLegacy_of_not hb2, dotifyUnder_of_not_mem hund_gcv,
      stripLegacy_of_not hlegs, dotifyUnder_of_not_mem hunders, hb1,
      cmpComponents_eq_seqCompare _ _ _ _ hps
        (parseComponents_take _ _ _ hpv),
      seqCompare_swap]
  have hdata : ∀ l : List Char, (String.mk l).data = l := fun _ => rfl
  have hfilt : (s ++ ['+']).filter (· != '+') = s := by
    rw [List.filter_append]
    have h1 : List.filter (· != '+') ['+'] = [] := by decide
    have h2 : List.filter (· != '+') s = s :=
      List.filter_eq_self.mpr fun a ha => by
        simp only [bne_iff_ne, ne_eq, decide_eq_true_eq]
        exact fun he => hplus (he ▸ ha)
    rw [h1, h2, List.append_nil]
  constructor
  · rw [filter_ver_some]
    have hcont : (String.mk (s ++ ['+'])).data.contains '+' = true := by
      rw [hdata]
      simp
    rw [hcont]
    simp only [if_true]
    rw [hfilt, hcvv1]
    cases VersionSpec.seqCompare (vcand.take (s.count '.' + 1)) vs <;> rfl
  · rw [filter_ver_some]
    have hcont : (String.mk s).data.contains '+' = false := by
      rw [hdata]
      simp only [List.contains, List.elem_eq_mem, decide_eq_false_iff_not]
      exact hplus
    rw [hcont]
    simp only [Bool.false_eq_true, if_false]
    rw [hcvv2]
    cases VersionSpec.seqCompare (vcand.take (s.count '.' + 1)) vs <;> rfl

/-- Witness for C2: the general clause applied to candidate "21.4.1" and
spec "21.4" (with and without the minimum marker). -/
theorem C2_satisfies_spec_truncated_witness :
    Java.filter_ver (some (String.mk ("21.4".data ++ ['+'])))
        { version := "21.4.1", name := "", architecture := "", path := "" }
      = some (VersionSpec.seqCompare
          (List.take ("21.4".data.count '.' + 1) [21, 4, 1]) [21, 4]
            != Ordering.lt)
    ∧ Java.filter_ver (some (String.mk "21.4".data))
        { version := "21.4.1", name := "", architecture := "", path := "" }
      = some (VersionSpec.seqCompare
          (List.take ("21.4".data.count '.' + 1) [21, 4, 1]) [21, 4]
            == Ordering.eq) :=
  C2_satisfies_spec_truncated.1
    { version := "21.4.1", name := "", architecture := "", path := "" }
    "21.4".data [21, 4, 1] [21, 4] (by decide) (by decide) (by decide)
    (by decide) (by decide) (by decide) (by decide)

/-- Counterexample to C2 as stated: for the legacy candidate "1.8.0.292" and
the spec "8.0", the normalized candidate components are [8, 0, 292], whose
truncation to the spec's two components equals the spec's [8, 0], so the
claim says the spec is satisfied; the code truncates the raw string before
normalizing ("1.8" from "1.8.0.292"), compares [8] against [8, 0] and
rejects. -/
theorem C2_satisfies_spec_truncated_counterexample :
    VersionSpec.parseComponents (VersionSpec.normPieces "1.8.0.292".data)
        = some [8, 0, 292]
    ∧ VersionSpec.seqCompare (List.take 2 [8, 0, 292]) [8, 0] = .eq
    ∧ Java.filter_ver (some "8.0")
        { version := "1.8.0.292", name := "", architecture := "", path := "" }
        = some false :=
  ⟨by decide, by decide, by decide⟩

theorem cmpComponents_swap :
    ∀ l1 l2 : List Java.Chars,
      Java.cmpComponents l2 l1
        = (Java.cmpComponents l1 l2).map Ordering.swap := by
  intro l1
  induction l1 with
  | nil =>
    intro l2
    cases l2 with
    | nil => rfl
    | cons b t => rfl
  | cons a t1 ih =>
    intro l2
    cases l2 with
    | nil => rfl
    | cons b t2 =>
      cases ha : Java.parse_i32 a with
      | none =>
        cases hb : Java.parse_i32 b with
        | none => simp [Java.cmpComponents, ha, hb]
        | some y => simp [Java.cmpComponents, ha, hb]
      | some x =>
        cases hb : Java.parse_i32 b with
        | none => simp [Java.cmpComponents, ha, hb]
        | some y =>
          simp only [Java.cmpComponents, ha, hb]
          rcases lt_trichotomy x y with h | h | h
          · rw [if_pos (show y > x from h), if_neg (show ¬ x > y by omega),
              if_pos h]
            rfl
          · rw [if_neg (show ¬ y > x by omega), if_neg (show ¬ y < x by omega),
              if_neg (show ¬ x > y by omega), if_neg (show ¬ x < y by omega)]
            exact ih t2
          · rw [if_neg (show ¬ y > x by omega), if_pos (show y < x from h),
              if_pos (show x > y from h)]
            rfl

theorem compare_version_values_swap (v1 v2 : Java.Chars) :
    Java.compare_version_values v2 v1
      = (Java.compare_version_values v1 v2).map Ordering.swap :=
  cmpComponents_swap _ _

theorem compare_boosting_architecture_some (a b : Java.Jvm) (d : String)
    (o : Ordering)
    (h : Java.compare_version_values b.version.data a.version.data = some o) :
    Java.compare_boosting_architecture a b d =
      (if o = Ordering.eq then
        if b.architecture ≠ d ∧ a.architecture = d then some Ordering.lt
        else if b.architecture = d ∧ a.architecture ≠ d then some Ordering.gt
        else some o
      else some o) := by
  unfold Java.compare_boosting_architecture
  rw [h]

/-! ### Claim C6 -/

/-- Claim C6 (amended): for candidates whose version strings the comparator
can parse, when the two versions compare equal the candidate whose
architecture equals the host default sorts strictly ahead (and with both or
neither matching the order is equal); when the versions compare unequal the
candidates are ordered by version descending regardless of architecture —
the boost is a tie-break only. -/
theorem C6_architecture_boost_tiebreak :
    ∀ (a b : Java.Jvm) (d : String) (o : Ordering),
      Java.compare_version_values a.version.data b.version.data = some o →
      (o = .eq →
        ((a.architecture = d ∧ b.architecture ≠ d →
            Java.compare_boosting_architecture a b d = some .lt)
        ∧ (b.architecture = d ∧ a.architecture ≠ d →
            Java.compare_boosting_architecture a b d = some .gt)
        ∧ ((a.architecture = d ↔ b.architecture = d) →
            Java.compare_boosting_architecture a b d = some .eq)))
      ∧ (o ≠ .eq →
          Java.compare_boosting_architecture a b d = some o.swap) := by
  intro a b d o hcmp
  have hswap : Java.compare_version_values b.version.data a.version.data
      = some o.swap := by
    rw [compare_version_values_swap, hcmp]
    rfl
  have hred := compare_boosting_architecture_some a b d o.swap hswap
  constructor
  · intro heq
    subst heq
    rw [show Ordering.eq.swap = Ordering.eq from rfl] at hred
    rw [if_pos rfl] at hred
    refine ⟨?_, ?_, ?_⟩
    · intro ⟨ha, hb⟩
      rw [hred, if_pos ⟨hb, ha⟩]
    · intro ⟨hb, ha⟩
      rw [hred, if_neg (fun hc => hc.1 hb), if_pos ⟨hb, ha⟩]
    · intro hiff
      by_cases ha : a.architecture = d
      · have hb := hiff.mp ha
        rw [hred, if_neg (fun hc => hc.1 hb), if_neg (fun hc => hc.2 ha)]
      · have hb : b.architecture ≠ d := fun hc => ha (hiff.mpr hc)
        rw [hred, if_neg (fun hc => ha hc.2), if_neg (fun hc => hb hc.1)]
  · intro hne
    have hsne : o.swap ≠ Ordering.eq := by
      cases o with
      | lt => simp [Ordering.swap]
      | eq => exact absurd rfl hne
      | gt => simp [Ordering.swap]
    rw [hred, if_neg hsne]

/-- Witness for C6: equal versions "17"/"17" on a host defaulting to
x86_64 rank the x86_64 candidate strictly first. -/
theorem C6_architecture_boost_tiebreak_witness :
    Java.compare_boosting_architecture
        { version := "17", name := "", architecture := "x86_64", path := "" }
        { version := "17", name := "", architecture := "aarch64", path := "" }
        "x86_64" = some .lt :=
  ((C6_architecture_boost_tiebreak
      { version := "17", name := "", architecture := "x86_64", path := "" }
      { version := "17", name := "", architecture := "aarch64", path := "" }
      "x86_64" .eq (by decide)).1 rfl).1 (by decide)

/-- Counterexample to C6 as stated: the versions "1.8" and "8" are not
exactly equal, so the claim demands ordering by version descending
regardless of architecture (here: no strict preference), yet the code
applies the architecture boost because the versions compare equal after
normalization. -/
theorem C6_architecture_boost_tiebreak_counterexample :
    ("1.8" : String) ≠ "8"
    ∧ Java.compare_version_values "8".data "1.8".data = some .eq
    ∧ Java.compare_boosting_architecture
        { version := "1.8", name := "", architecture := "x86_64", path := "" }
        { version := "8", name := "", architecture := "aarch64", path := "" }
        "x86_64" = some .lt :=
  ⟨by decide, by decide, by decide⟩

/-! ### Claims C4 and C7 -/

/-- Claim C7: whenever host OS/architecture detection fails (unsupported
platform, unrecognized architecture string, unreadable os-release), the
JVM-style discovery run returns the empty result list without attempting
enumeration. -/
theorem C7_host_detection_fail_closed :
    ∀ (env : Java.Env) (args : Java.MatchOptions),
      Java.get_operating_system env = some none →
      Java.run args env = some [] := by
  intro env args h
  unfold Java.run
  rw [h]

/-- Witness for C7: on a host whose `uname -ps` reports an unrecognized
Linux architecture, the run returns the empty list. -/
theorem C7_host_detection_fail_closed_witness :
    Java.run { name := none, arch := none, version := none }
      { unameOut := "Linux riscv64",
        osRelease := some [("ID", "ubuntu")],
        readDir := fun _ => none } = some [] :=
  C7_host_detection_fail_closed
    { unameOut := "Linux riscv64",
      osRelease := some [("ID", "ubuntu")],
      readDir := fun _ => none }
    { name := none, arch := none, version := none } (by decide)

/-- Claim C4 is a code bug: on Linux a directory entry named
"openjdk-java-8" (a non-symlink directory without a release file) makes
`collate_jvms` panic at `parts.get(3).unwrap()`, and the panic escapes the
top-level `run` (embedded `none`) instead of degrading to a smaller result
set; host detection succeeded, so this is not the benign empty-result
path. -/
theorem C4_run_panics_on_enumeration :
    Java.run { name := none, arch := none, version := none }
      { unameOut := "Linux x86_64",
        osRelease := some [("ID", "ubuntu")],
        readDir := fun p =>
          if p = "/usr/lib/jvm" then
            some [{ fileName := "openjdk-java-8", isDir := true,
                    isSymlink := false, release := none }]
          else none } = none
    ∧ Java.get_operating_system
      { unameOut := "Linux x86_64",
        osRelease := some [("ID", "ubuntu")],
        readDir := fun p =>
          if p = "/usr/lib/jvm" then
            some [{ fileName := "openjdk-java-8", isDir := true,
                    isSymlink := false, release := none }]
          else none } = some (some { name := "ubuntu", architecture := "x86_64" }) :=
  ⟨by decide, by decide⟩


/-! ### Claim C3 -/

theorem matchesOpts_version_none :
    ∀ (c : Python.PythonVersion) (opts : Python.MatchOptions),
      c.version = none →
      Python.matchesOpts c opts ≠ some true
      ∧ (opts.name = none → Python.matchesOpts c opts = some false) := by
  intro c opts hv
  cases hon : opts.name with
  | none =>
    have hred : Python.matchesOpts c opts = some false := by
      unfold Python.matchesOpts
      rw [hon, hv]
      simp only [ite_self]
    exact ⟨by rw [hred]; simp, fun _ => hred⟩
  | some n =>
    cases hfn : Python.file_name c.executable with
    | none =>
      have hred : Python.matchesOpts c opts = none := by
        unfold Python.matchesOpts
        rw [hon, hfn]
      exact ⟨by rw [hred]; simp, fun h => absurd h (by simp)⟩
    | some fn =>
      cases hbeq : fn == n with
      | false =>
        have hred : Python.matchesOpts c opts = some false := by
          unfold Python.matchesOpts
          rw [hon, hfn]
          simp only [hbeq]
        exact ⟨by rw [hred]; simp, fun h => absurd h (by simp)⟩
      | true =>
        have hred : Python.matchesOpts c opts = some false := by
          unfold Python.matchesOpts
          rw [hon, hfn, hv]
          simp only [hbeq, ite_self]
        exact ⟨by rw [hred]; simp, fun h => absurd h (by simp)⟩

/-- Claim C3 (amended): a candidate whose version cannot be resolved matches
no query at all — `matches` either returns false or (for a name query on a
path without a final component) panics, but never returns true; in
particular even queries with no version-bearing field reject such a
candidate, because `matches` unconditionally forces version resolution. -/
theorem C3_unresolved_version_never_matches :
    ∀ (c : Python.PythonVersion) (opts : Python.MatchOptions),
      c.version = none →
      Python.matchesOpts c opts ≠ some true
      ∧ (opts.name = none → Python.matchesOpts c opts = some false) :=
  matchesOpts_version_none

/-- Witness for C3 (amended): a candidate at /usr/bin/python3 with failed
version resolution matches neither the empty query nor anything else. -/
theorem C3_unresolved_version_never_matches_witness :
    Python.matchesOpts (Python.samplePy "/usr/bin/python3" none none)
        Python.noOpts ≠ some true
    ∧ (Python.noOpts.name = none →
        Python.matchesOpts (Python.samplePy "/usr/bin/python3" none none)
          Python.noOpts = some false) :=
  C3_unresolved_version_never_matches
    (Python.samplePy "/usr/bin/python3" none none) Python.noOpts rfl

/-- Counterexample to C3 as stated: a candidate with unresolvable version
fails even the empty query and a matching name-only query, although all
their (vacuous or satisfied) non-version fields hold. -/
theorem C3_unresolved_version_never_matches_counterexample :
    Python.matchesOpts (Python.samplePy "/usr/bin/python3" none none)
        Python.noOpts = some false
    ∧ Python.matchesOpts (Python.samplePy "/usr/bin/python3" none none)
        { Python.noOpts with name := some "python3" } = some false :=
  ⟨by decide, by decide⟩

/-! ### Lemmas about keying and first-wins deduplication -/

theorem all_keys_cons_some {f : Python.Finder} {c : Python.PythonVersion}
    {t : List Python.PythonVersion} {ks : List (String × Python.PythonVersion)}
    (h : Python.all_keys f (c :: t) = some ks) :
    ∃ k kt, Python.deduplicate_key f c = some k
      ∧ Python.all_keys f t = some kt ∧ ks = (k, c) :: kt := by
  rw [Python.all_keys] at h
  cases hc : Python.deduplicate_key f c with
  | none => rw [hc] at h; exact absurd h (by simp)
  | some k =>
    cases ht : Python.all_keys f t with
    | none => rw [hc, ht] at h; exact absurd h (by simp)
    | some kt =>
      rw [hc, ht] at h
      simp only [Option.some.injEq] at h
      exact ⟨k, kt, rfl, rfl, h.symm⟩

theorem all_keys_map_snd {f : Python.Finder} :
    ∀ {l : List Python.PythonVersion}
      {ks : List (String × Python.PythonVersion)},
      Python.all_keys f l = some ks → ks.map Prod.snd = l := by
  intro l
  induction l with
  | nil =>
    intro ks h
    rw [Python.all_keys] at h
    simp only [Option.some.injEq] at h
    rw [← h]
    rfl
  | cons c t ih =>
    intro ks h
    obtain ⟨k, kt, _, ht, hks⟩ := all_keys_cons_some h
    subst hks
    rw [List.map_cons, ih ht]

theorem all_keys_pairs {f : Python.Finder} :
    ∀ {l : List Python.PythonVersion}
      {ks : List (String × Python.PythonVersion)},
      Python.all_keys f l = some ks →
      ∀ p ∈ ks, Python.deduplicate_key f p.2 = some p.1 := by
  intro l
  induction l with
  | nil =>
    intro ks h p hp
    rw [Python.all_keys] at h
    simp only [Option.some.injEq] at h
    rw [← h] at hp
    exact absurd hp (List.not_mem_nil p)
  | cons c t ih =>
    intro ks h p hp
    obtain ⟨k, kt, hc, ht, hks⟩ := all_keys_cons_some h
    subst hks
    rcases List.mem_cons.mp hp with h1 | h1
    · subst h1
      exact hc
    · exact ih ht p h1

theorem all_keys_mem {f : Python.Finder} :
    ∀ {l : List Python.PythonVersion}
      {ks : List (String × Python.PythonVersion)},
      Python.all_keys f l = some ks →
      ∀ x ∈ l, ∃ k, Python.deduplicate_key f x = some k ∧ (k, x) ∈ ks := by
  intro l
  induction l with
  | nil =>
    intro ks h x hx
    exact absurd hx (List.not_mem_nil x)
  | cons c t ih =>
    intro ks h x hx
    obtain ⟨k, kt, hc, ht, hks⟩ := all_keys_cons_some h
    subst hks
    rcases List.mem_cons.mp hx with h1 | h1
    · subst h1
      exact ⟨k, hc, List.mem_cons_self _ _⟩
    · obtain ⟨kx, hkx, hmem⟩ := ih ht x h1
      exact ⟨kx, hkx, List.mem_cons.mpr (Or.inr hmem)⟩

theorem all_keys_isSome {f : Python.Finder} :
    ∀ {l : List Python.PythonVersion},
      (∀ c ∈ l, (Python.deduplicate_key f c).isSome) →
      ∃ ks, Python.all_keys f l = some ks := by
  intro l
  induction l with
  | nil => intro; exact ⟨[], rfl⟩
  | cons c t ih =>
    intro h
    obtain ⟨k, hk⟩ := Option.isSome_iff_exists.mp (h c (List.mem_cons_self c t))
    obtain ⟨kt, hkt⟩ := ih (fun x hx => h x (List.mem_cons.mpr (Or.inr hx)))
    exact ⟨(k, c) :: kt, by rw [Python.all_keys, hk, hkt]⟩

theorem dedup_first_aux_sublist :
    ∀ (seen : List String) (ps : List (String × Python.PythonVersion)),
      List.Sublist (Python.dedup_first_aux seen ps) ps := by
  intro seen ps
  induction ps generalizing seen with
  | nil => exact List.Sublist.refl []
  | cons p t ih =>
    obtain ⟨k, c⟩ := p
    rw [Python.dedup_first_aux]
    by_cases hk : k ∈ seen
    · rw [if_pos hk]
      exact (ih seen).trans (List.sublist_cons_self (k, c) t)
    · rw [if_neg hk]
      exact List.Sublist.cons₂ (k, c) (ih (k :: seen))

theorem dedup_first_aux_not_seen :
    ∀ (seen : List String) (ps : List (String × Python.PythonVersion))
      (p : String × Python.PythonVersion),
      p ∈ Python.dedup_first_aux seen ps → p.1 ∉ seen := by
  intro seen ps
  induction ps generalizing seen with
  | nil =>
    intro p hp
    exact absurd hp (List.not_mem_nil p)
  | cons q t ih =>
    obtain ⟨k, c⟩ := q
    intro p hp
    rw [Python.dedup_first_aux] at hp
    by_cases hk : k ∈ seen
    · rw [if_pos hk] at hp
      exact ih seen p hp
    · rw [if_neg hk] at hp
      rcases List.mem_cons.mp hp with h1 | h1
      · subst h1
        exact hk
      · have := ih (k :: seen) p h1
        exact fun hmem => this (List.mem_cons.mpr (Or.inr hmem))

theorem dedup_first_aux_nodup_keys :
    ∀ (seen : List String) (ps : List (String × Python.PythonVersion)),
      (Python.dedup_first_aux seen ps).Pairwise (fun p q => p.1 ≠ q.1) := by
  intro seen ps
  induction ps generalizing seen with
  | nil => exact List.Pairwise.nil
  | cons q t ih =>
    obtain ⟨k, c⟩ := q
    rw [Python.dedup_first_aux]
    by_cases hk : k ∈ seen
    · rw [if_pos hk]
      exact ih seen
    · rw [if_neg hk]
      refine List.Pairwise.cons ?_ (ih (k :: seen))
      intro p hp
      have := dedup_first_aux_not_seen (k :: seen) t p hp
      exact fun he => this (he ▸ List.mem_cons_self k seen)

theorem dedup_first_aux_find :
    ∀ (seen : List String) (ps : List (String × Python.PythonVersion))
      (k : String) (c : Python.PythonVersion),
      (k, c) ∈ Python.dedup_first_aux seen ps →
      ps.find? (fun q => q.1 == k) = some (k, c) := by
  intro seen ps
  induction ps generalizing seen with
  | nil =>
    intro k c hp
    exact absurd hp (List.not_mem_nil (k, c))
  | cons q t ih =>
    obtain ⟨k0, c0⟩ := q
    intro k c hp
    rw [Python.dedup_first_aux] at hp
    by_cases hk0 : k0 ∈ seen
    · rw [if_pos hk0] at hp
      have hns := dedup_first_aux_not_seen seen t (k, c) hp
      have hne : k ≠ k0 := fun he => hns (by rw [he]; exact hk0)
      rw [List.find?_cons_of_neg _ (by
        simp only [beq_iff_eq]
        exact fun hc => hne hc.symm)]
      exact ih seen k c hp
    · rw [if_neg hk0] at hp
      rcases List.mem_cons.mp hp with h1 | h1
      · have hk : k0 = k := congrArg Prod.fst h1.symm
        have hc : c0 = c := congrArg Prod.snd h1.symm
        subst hk
        subst hc
        rw [List.find?_cons_of_pos _ (by simp)]
      · have hne : k ≠ k0 := by
          have := dedup_first_aux_not_seen (k0 :: seen) t (k, c) h1
          exact fun he => this (he ▸ List.mem_cons_self k0 seen)
        rw [List.find?_cons_of_neg _ (by simp; exact fun hc => hne hc.symm)]
        exact ih (k0 :: seen) k c h1

theorem dedup_first_aux_exists :
    ∀ (seen : List String) (ps : List (String × Python.PythonVersion))
      (x : String × Python.PythonVersion),
      x ∈ ps → x.1 ∉ seen →
      ∃ q ∈ Python.dedup_first_aux seen ps, q.1 = x.1 := by
  intro seen ps
  induction ps generalizing seen with
  | nil =>
    intro x hx
    exact absurd hx (List.not_mem_nil x)
  | cons q t ih =>
    obtain ⟨k0, c0⟩ := q
    intro x hx hseen
    rw [Python.dedup_first_aux]
    by_cases hk0 : k0 ∈ seen
    · rw [if_pos hk0]
      rcases List.mem_cons.mp hx with h1 | h1
      · exact absurd (show x.1 ∈ seen by rw [h1]; exact hk0) hseen
      · exact ih seen x h1 hseen
    · rw [if_neg hk0]
      rcases List.mem_cons.mp hx with h1 | h1
      · exact ⟨(k0, c0), List.mem_cons_self _ _, by rw [h1]⟩
      · by_cases hxk : x.1 = k0
        · exact ⟨(k0, c0), List.mem_cons_self _ _, hxk.symm⟩
        · obtain ⟨q2, hq2, hq2k⟩ := ih (k0 :: seen) x h1 (by
            intro hmem
            rcases List.mem_cons.mp hmem with h2 | h2
            · exact hxk h2
            · exact hseen h2)
          exact ⟨q2, List.mem_cons.mpr (Or.inr hq2), hq2k⟩

theorem dedup_first_aux_id :
    ∀ (seen : List String) (ps : List (String × Python.PythonVersion)),
      (∀ p ∈ ps, p.1 ∉ seen) →
      ps.Pairwise (fun p q => p.1 ≠ q.1) →
      Python.dedup_first_aux seen ps = ps := by
  intro seen ps
  induction ps generalizing seen with
  | nil => intro _ _; rfl
  | cons q t ih =>
    obtain ⟨k0, c0⟩ := q
    intro hseen hpw
    rw [Python.dedup_first_aux,
      if_neg (hseen (k0, c0) (List.mem_cons_self _ _))]
    obtain ⟨hhead, htail⟩ := List.pairwise_cons.mp hpw
    rw [ih (k0 :: seen) ?_ htail]
    intro p hp hmem
    rcases List.mem_cons.mp hmem with h1 | h1
    · exact hhead p hp h1.symm
    · exact hseen p (List.mem_cons.mpr (Or.inr hp)) h1

theorem matchesOpts_isSome_of_true {c : Python.PythonVersion}
    {opts : Python.MatchOptions}
    (h : Python.matchesOpts c opts = some true) : c.version.isSome := by
  cases hv : c.version with
  | some _ => rfl
  | none => exact absurd h (matchesOpts_version_none c opts hv).1

theorem matches_filter_mem {opts : Python.MatchOptions} :
    ∀ {l fl : List Python.PythonVersion},
      Python.matches_filter opts l = some fl →
      ∀ c ∈ fl, Python.matchesOpts c opts = some true ∧ c ∈ l := by
  intro l
  induction l with
  | nil =>
    intro fl h c hc
    rw [Python.matches_filter] at h
    simp only [Option.some.injEq] at h
    rw [← h] at hc
    exact absurd hc (List.not_mem_nil c)
  | cons p ps ih =>
    intro fl h c hc
    rw [Python.matches_filter] at h
    cases hm : Python.matchesOpts p opts with
    | none => rw [hm] at h; exact absurd h (by simp)
    | some b =>
      cases hr : Python.matches_filter opts ps with
      | none => rw [hm, hr] at h; exact absurd h (by simp)
      | some rest =>
        rw [hm, hr] at h
        simp only [Option.some.injEq] at h
        cases b with
        | true =>
          rw [if_pos rfl] at h
          rw [← h] at hc
          rcases List.mem_cons.mp hc with h1 | h1
          · subst h1
            exact ⟨hm, List.mem_cons_self _ _⟩
          · obtain ⟨hm2, hmem⟩ := ih hr c h1
            exact ⟨hm2, List.mem_cons.mpr (Or.inr hmem)⟩
        | false =>
          rw [if_neg (by simp)] at h
          rw [← h] at hc
          obtain ⟨hm2, hmem⟩ := ih hr c hc
          exact ⟨hm2, List.mem_cons.mpr (Or.inr hmem)⟩

theorem deduplicate_eq {f : Python.Finder} {l : List Python.PythonVersion}
    {keyed : List (String × Python.PythonVersion)}
    (h : Python.all_keys f (List.insertionSort Python.preLe l) = some keyed) :
    Python.deduplicate f l
      = Python.dedupRank ((Python.dedup_first keyed).map Prod.snd) := by
  unfold Python.deduplicate
  rw [h]

/-- Members of the collapsed representative list belong to the input. -/
theorem dedup_vals_mem {f : Python.Finder} {l : List Python.PythonVersion}
    {keyed : List (String × Python.PythonVersion)}
    (h : Python.all_keys f (List.insertionSort Python.preLe l) = some keyed) :
    ∀ v ∈ (Python.dedup_first keyed).map Prod.snd, v ∈ l := by
  intro v hv
  obtain ⟨p, hp, hpv⟩ := List.mem_map.mp hv
  have hp2 : p ∈ keyed := (dedup_first_aux_sublist [] keyed).subset hp
  have hm : v ∈ List.insertionSort Python.preLe l := by
    rw [← all_keys_map_snd h]
    exact List.mem_map.mpr ⟨p, hp2, hpv⟩
  exact (List.mem_insertionSort Python.preLe).mp hm

/-! ### Claim C10 -/

/-- Claim C10: every candidate list that `find_all` hands to the
deduplicate/rank stage contains only candidates whose version resolved
(because `matches` rejects any candidate whose resolution fails, even for
queries with no version constraint), so the version unwraps inside the
final ranking comparator cannot fail: whenever the key computations
succeed, the whole stage succeeds. -/
theorem C10_find_all_versions_resolved :
    ∀ (opts : Python.MatchOptions) (pythons fl : List Python.PythonVersion)
      (f : Python.Finder) (keyed : List (String × Python.PythonVersion)),
      Python.matches_filter opts pythons = some fl →
      Python.all_keys f (List.insertionSort Python.preLe fl) = some keyed →
      fl.all (fun c => c.version.isSome) = true
      ∧ (Python.deduplicate f fl).isSome = true := by
  intro opts pythons fl f keyed hmf hak
  have hver : ∀ c ∈ fl, c.version.isSome = true :=
    fun c hc => matchesOpts_isSome_of_true (matches_filter_mem hmf c hc).1
  refine ⟨List.all_eq_true.mpr hver, ?_⟩
  rw [deduplicate_eq hak]
  unfold Python.dedupRank
  rw [if_neg ?_]
  · rfl
  · intro hand
    obtain ⟨v, hv, hnone⟩ := List.any_eq_true.mp hand.2
    have hs := hver v (dedup_vals_mem hak v hv)
    cases hv2 : v.version with
    | none => rw [hv2] at hs; exact absurd hs (by simp)
    | some _ => rw [hv2] at hnone; exact absurd hnone (by simp)

/-- Witness for C10: a two-candidate list where one candidate's version
resolution fails; the filtered list keeps only the resolved one and the
stage succeeds on it. -/
theorem C10_find_all_versions_resolved_witness :
    ([Python.samplePy "/usr/bin/python3" (some ⟨[3, 11], false, false⟩) none]
        : List Python.PythonVersion).all (fun c => c.version.isSome) = true
    ∧ (Python.deduplicate
        { resolve_symlinks := false, same_file := true,
          same_interpreter := true }
        [Python.samplePy "/usr/bin/python3" (some ⟨[3, 11], false, false⟩)
          none]).isSome = true :=
  C10_find_all_versions_resolved Python.noOpts
    [Python.samplePy "/usr/bin/python" none none,
      Python.samplePy "/usr/bin/python3" (some ⟨[3, 11], false, false⟩) none]
    [Python.samplePy "/usr/bin/python3" (some ⟨[3, 11], false, false⟩) none]
    { resolve_symlinks := false, same_file := true, same_interpreter := true }
    [("/usr/bin/python3",
      Python.samplePy "/usr/bin/python3" (some ⟨[3, 11], false, false⟩) none)]
    (by decide) (by decide)

theorem all_keys_find {f : Python.Finder} {kk : String} :
    ∀ {l : List Python.PythonVersion}
      {ks : List (String × Python.PythonVersion)}
      {p : String × Python.PythonVersion},
      Python.all_keys f l = some ks →
      ks.find? (fun q => q.1 == kk) = some p →
      l.find? (fun y => Python.deduplicate_key f y == some kk) = some p.2 := by
  intro l
  induction l with
  | nil =>
    intro ks p h hf
    rw [Python.all_keys] at h
    simp only [Option.some.injEq] at h
    rw [← h] at hf
    exact absurd hf (by simp)
  | cons c t ih =>
    intro ks p h hf
    obtain ⟨k, kt, hc, ht, hks⟩ := all_keys_cons_some h
    subst hks
    cases hky : k == kk with
    | true =>
      rw [List.find?_cons_of_pos _ (by simp only []; exact hky)] at hf
      simp only [Option.some.injEq] at hf
      have hkeq : k = kk := beq_iff_eq.mp hky
      rw [List.find?_cons_of_pos _ (by
        rw [hc, hkeq]
        simp)]
      rw [← hf]
    | false =>
      rw [List.find?_cons_of_neg _ (by simp only []; simp [hky])] at hf
      rw [List.find?_cons_of_neg _ (by
        rw [hc]
        simp only [beq_iff_eq, Option.some.injEq]
        exact fun he => by simp [he] at hky)]
      exact ih ht hf

theorem dedupRank_some {vals out : List Python.PythonVersion}
    (h : Python.dedupRank vals = some out) :
    out = List.insertionSort Python.finLe vals := by
  unfold Python.dedupRank at h
  split at h
  · exact absurd h (by simp)
  · simp only [Option.some.injEq] at h
    exact h.symm

/-! ### Claim C5 -/

/-- Claim C5: the deduplication identity key follows the configuration
precedence the claim states (interpreter path, else content hash, else
canonical real path, else literal path), and among candidates sharing a
key the first one under the pre-ordering (non-symlink first, then suffix
specificity ascending, then path length descending — the `preLe` order)
becomes the retained representative; every input candidate is represented.
-/
theorem C5_dedup_key_and_representative :
    (∀ (f : Python.Finder) (c : Python.PythonVersion),
      Python.deduplicate_key f c = Python.claim_key f c)
    ∧ ∀ (f : Python.Finder) (l out : List Python.PythonVersion),
        Python.deduplicate f l = some out →
        (∀ c ∈ out, ∃ k, Python.deduplicate_key f c = some k
          ∧ (List.insertionSort Python.preLe l).find?
              (fun y => Python.deduplicate_key f y == some k) = some c)
        ∧ (∀ x ∈ l, ∃ c ∈ out,
            Python.deduplicate_key f c = Python.deduplicate_key f x) := by
  constructor
  · intro f c
    obtain ⟨rs, sf, si⟩ := f
    cases si <;> cases sf <;> cases rs <;>
      cases hks : c.keep_symlink <;>
        simp [Python.deduplicate_key, Python.claim_key, hks]
  · intro f l out hded
    unfold Python.deduplicate at hded
    cases hak : Python.all_keys f (List.insertionSort Python.preLe l) with
    | none => rw [hak] at hded; exact absurd hded (by simp)
    | some keyed =>
      rw [hak] at hded
      have hout := dedupRank_some hded
      constructor
      · intro c hc
        rw [hout] at hc
        have hvals : c ∈ (Python.dedup_first keyed).map Prod.snd :=
          (List.mem_insertionSort Python.finLe).mp hc
        obtain ⟨p, hp, hpc⟩ := List.mem_map.mp hvals
        obtain ⟨k, c2⟩ := p
        have hc2 : c2 = c := hpc
        subst hc2
        refine ⟨k, all_keys_pairs hak (k, c2)
          ((dedup_first_aux_sublist [] keyed).subset hp), ?_⟩
        exact all_keys_find hak (dedup_first_aux_find [] keyed k c2 hp)
      · intro x hx
        have hxm : x ∈ List.insertionSort Python.preLe l :=
          (List.mem_insertionSort Python.preLe).mpr hx
        obtain ⟨kx, hkx, hmem⟩ := all_keys_mem hak x hxm
        obtain ⟨q, hq, hqk⟩ := dedup_first_aux_exists [] keyed (kx, x) hmem
          (List.not_mem_nil _)
        refine ⟨q.2, ?_, ?_⟩
        · rw [hout]
          exact (List.mem_insertionSort Python.finLe).mpr
            (List.mem_map.mpr ⟨q, hq, rfl⟩)
        · rw [all_keys_pairs hak q ((dedup_first_aux_sublist [] keyed).subset hq), hqk, hkx]

/-- Witness for C5: two candidates at the same path collapse to the first
under the pre-ordering; applied to a concrete list of two duplicates. -/
theorem C5_dedup_key_and_representative_witness :
    (∀ c ∈ [Python.samplePy "/usr/bin/python" (some ⟨[3, 11], false, false⟩)
        none],
      ∃ k, Python.deduplicate_key
          { resolve_symlinks := false, same_file := true,
            same_interpreter := true } c = some k
        ∧ (List.insertionSort Python.preLe
            [Python.samplePy "/usr/bin/python" (some ⟨[3, 11], false, false⟩)
              none,
             Python.samplePy "/usr/bin/python" (some ⟨[3, 12], false, false⟩)
              (some "dup")]).find?
            (fun y => Python.deduplicate_key
              { resolve_symlinks := false, same_file := true,
                same_interpreter := true } y == some k) = some c)
    ∧ (∀ x ∈ [Python.samplePy "/usr/bin/python" (some ⟨[3, 11], false, false⟩)
        none,
        Python.samplePy "/usr/bin/python" (some ⟨[3, 12], false, false⟩)
          (some "dup")],
        ∃ c ∈ [Python.samplePy "/usr/bin/python"
            (some ⟨[3, 11], false, false⟩) none],
          Python.deduplicate_key
            { resolve_symlinks := false, same_file := true,
              same_interpreter := true } c
          = Python.deduplicate_key
            { resolve_symlinks := false, same_file := true,
              same_interpreter := true } x) :=
  C5_dedup_key_and_representative.2
    { resolve_symlinks := false, same_file := true, same_interpreter := true }
    [Python.samplePy "/usr/bin/python" (some ⟨[3, 11], false, false⟩) none,
     Python.samplePy "/usr/bin/python" (some ⟨[3, 12], false, false⟩)
      (some "dup")]
    [Python.samplePy "/usr/bin/python" (some ⟨[3, 11], false, false⟩) none]
    (by decide)

/-! ### Claim C9 -/

theorem orderedInsert_map {α : Type} (r : α → α → Prop) [DecidableRel r]
    (g : α → α) (hg : ∀ a b, r (g a) (g b) ↔ r a b) (a : α) :
    ∀ l, List.orderedInsert r (g a) (l.map g)
      = (List.orderedInsert r a l).map g := by
  intro l
  induction l with
  | nil => rfl
  | cons b t ih =>
    rw [List.map_cons, List.orderedInsert, List.orderedInsert]
    by_cases h : r a b
    · rw [if_pos ((hg a b).mpr h), if_pos h, List.map_cons, List.map_cons]
    · rw [if_neg (fun hc => h ((hg a b).mp hc)), if_neg h, List.map_cons, ih]

theorem insertionSort_map {α : Type} (r : α → α → Prop) [DecidableRel r]
    (g : α → α) (hg : ∀ a b, r (g a) (g b) ↔ r a b) :
    ∀ l, List.insertionSort r (l.map g) = (List.insertionSort r l).map g := by
  intro l
  induction l with
  | nil => rfl
  | cons b t ih =>
    rw [List.map_cons, List.insertionSort, List.insertionSort, ih,
      orderedInsert_map r g hg]

theorem relabel_pair_keys {f : Python.Finder}
    {g : Python.PythonVersion → Option String} :
    ∀ (m : List Python.PythonVersion),
      Python.all_keys f (m.map (Python.relabel g))
        = (Python.all_keys f m).map
            (List.map (fun p => (p.1, Python.relabel g p.2))) := by
  intro m
  induction m with
  | nil => rfl
  | cons c t ih =>
    rw [List.map_cons, Python.all_keys, Python.all_keys]
    have hkey : Python.deduplicate_key f (Python.relabel g c)
        = Python.deduplicate_key f c := rfl
    rw [hkey, ih]
    cases Python.deduplicate_key f c with
    | none => rfl
    | some k =>
      cases Python.all_keys f t with
      | none => rfl
      | some kt => rfl

theorem dedup_first_aux_map {g : Python.PythonVersion → Option String} :
    ∀ (seen : List String) (ps : List (String × Python.PythonVersion)),
      Python.dedup_first_aux seen
          (ps.map (fun p => (p.1, Python.relabel g p.2)))
        = (Python.dedup_first_aux seen ps).map
            (fun p => (p.1, Python.relabel g p.2)) := by
  intro seen ps
  induction ps generalizing seen with
  | nil => rfl
  | cons q t ih =>
    obtain ⟨k, c⟩ := q
    rw [List.map_cons, Python.dedup_first_aux, Python.dedup_first_aux]
    by_cases hk : k ∈ seen
    · rw [if_pos hk, if_pos hk, ih seen]
    · rw [if_neg hk, if_neg hk, List.map_cons, ih (k :: seen)]

/-- Claim C9 (amended, Python-style discovery): candidate labels
(`formatted_name`) are purely cosmetic — relabeling candidates changes
neither matching, nor the deduplication key, nor the output of the
dedup/rank stage or of `find_all` (beyond carrying the new labels). -/
theorem C9_labels_cosmetic :
    ∀ (g : Python.PythonVersion → Option String) (f : Python.Finder)
      (opts : Python.MatchOptions) (c : Python.PythonVersion)
      (l : List Python.PythonVersion),
      Python.matchesOpts (Python.relabel g c) opts = Python.matchesOpts c opts
      ∧ Python.deduplicate_key f (Python.relabel g c)
          = Python.deduplicate_key f c
      ∧ Python.deduplicate f (l.map (Python.relabel g))
          = (Python.deduplicate f l).map (List.map (Python.relabel g))
      ∧ Python.find_all f opts (l.map (Python.relabel g))
          = (Python.find_all f opts l).map (List.map (Python.relabel g)) := by
  intro g f opts c l
  have hmatch : ∀ (c : Python.PythonVersion),
      Python.matchesOpts (Python.relabel g c) opts
        = Python.matchesOpts c opts := fun _ => rfl
  have hpre : ∀ a b, Python.preLe (Python.relabel g a) (Python.relabel g b)
      ↔ Python.preLe a b := fun _ _ => Iff.rfl
  have hfin : ∀ a b, Python.finLe (Python.relabel g a) (Python.relabel g b)
      ↔ Python.finLe a b := fun _ _ => Iff.rfl
  have hdedup : ∀ (m : List Python.PythonVersion),
      Python.deduplicate f (m.map (Python.relabel g))
        = (Python.deduplicate f m).map (List.map (Python.relabel g)) := by
    intro m
    unfold Python.deduplicate
    rw [insertionSort_map Python.preLe (Python.relabel g) hpre,
      relabel_pair_keys]
    cases Python.all_keys f (List.insertionSort Python.preLe m) with
    | none => rfl
    | some keyed =>
      simp only [Option.map_some']
      unfold Python.dedup_first
      rw [dedup_first_aux_map, List.map_map]
      have hsnd : (Prod.snd ∘ fun p : String × Python.PythonVersion =>
          (p.1, Python.relabel g p.2)) = Python.relabel g ∘ Prod.snd := rfl
      rw [hsnd, ← List.map_map]
      unfold Python.dedupRank
      rw [List.length_map]
      have hany : (((Python.dedup_first_aux [] keyed).map Prod.snd).map
            (Python.relabel g)).any (fun c => c.version.isNone)
          = ((Python.dedup_first_aux [] keyed).map Prod.snd).any
              (fun c => c.version.isNone) := by
        rw [List.any_map]
        rfl
      rw [hany]
      by_cases hcond : 2 ≤ ((Python.dedup_first_aux [] keyed).map
          Prod.snd).length
        ∧ ((Python.dedup_first_aux [] keyed).map Prod.snd).any
            (fun c => c.version.isNone) = true
      · rw [if_pos hcond, if_pos hcond]
        rfl
      · rw [if_neg hcond, if_neg hcond,
          insertionSort_map Python.finLe (Python.relabel g) hfin]
        rfl
  refine ⟨hmatch c, rfl, hdedup l, ?_⟩
  unfold Python.find_all
  have hfilter : ∀ (m : List Python.PythonVersion),
      Python.matches_filter opts (m.map (Python.relabel g))
        = (Python.matches_filter opts m).map (List.map (Python.relabel g)) := by
    intro m
    induction m with
    | nil => rfl
    | cons p ps ih =>
      rw [List.map_cons, Python.matches_filter, Python.matches_filter,
        hmatch p, ih]
      cases Python.matchesOpts p opts with
      | none => rfl
      | some b =>
        cases Python.matches_filter opts ps with
        | none => rfl
        | some rest =>
          cases b with
          | true => rfl
          | false => rfl
  rw [hfilter l]
  cases Python.matches_filter opts l with
  | none => rfl
  | some filtered =>
    simp only [Option.map_some']
    exact hdedup filtered

/-- Counterexample to C9 as stated: in JVM-style discovery the
provider-assigned name is not cosmetic — two candidates differing only in
their name get different matching outcomes under a name query, and the
full-record set deduplication keeps both while it collapses same-name
duplicates. -/
theorem C9_labels_cosmetic_counterexample :
    Java.filter_name (some "A")
        { version := "17", name := "A", architecture := "x86_64", path := "/j" }
      = true
    ∧ Java.filter_name (some "A")
        { version := "17", name := "B", architecture := "x86_64", path := "/j" }
      = false
    ∧ Java.insertUnique (Java.insertUnique []
        { version := "17", name := "A", architecture := "x86_64", path := "/j" })
        { version := "17", name := "B", architecture := "x86_64", path := "/j" }
      = [{ version := "17", name := "A", architecture := "x86_64", path := "/j" },
          { version := "17", name := "B", architecture := "x86_64", path := "/j" }]
    ∧ Java.insertUnique (Java.insertUnique []
        { version := "17", name := "A", architecture := "x86_64", path := "/j" })
        { version := "17", name := "A", architecture := "x86_64", path := "/j" }
      = [{ version := "17", name := "A", architecture := "x86_64", path := "/j" }] :=
  ⟨by decide, by decide, by decide, by decide⟩

/-! ### Order-theoretic facts about the ranking comparators -/

theorem cmpN_swap (x y : Nat) : Python.cmpN y x = (Python.cmpN x y).swap := by
  unfold Python.cmpN
  split_ifs <;> simp [Ordering.swap] <;> omega

theorem cmpN_eq_iff {x y : Nat} : Python.cmpN x y = .eq ↔ x = y := by
  unfold Python.cmpN
  split_ifs <;> simp <;> omega

theorem cmpN_ne_gt_iff {x y : Nat} : Python.cmpN x y ≠ .gt ↔ x ≤ y := by
  unfold Python.cmpN
  split_ifs <;> simp <;> omega

theorem lexNat_swap :
    ∀ u v : List Nat, Python.lexNat v u = (Python.lexNat u v).swap := by
  intro u
  induction u with
  | nil =>
    intro v
    cases v <;> rfl
  | cons x xs ih =>
    intro v
    cases v with
    | nil => rfl
    | cons y ys =>
      rw [Python.lexNat, Python.lexNat]
      rcases lt_trichotomy x y with h | h | h
      · have h1 : ¬ y < x := by omega
        simp [h, h1, Ordering.swap]
      · subst h
        simp only [lt_irrefl, if_false]
        exact ih ys
      · have h1 : ¬ x < y := by omega
        simp [h, h1, Ordering.swap]

theorem lexNat_eq_iff : ∀ {u v : List Nat}, Python.lexNat u v = .eq ↔ u = v := by
  intro u
  induction u with
  | nil =>
    intro v
    cases v <;> simp [Python.lexNat]
  | cons x xs ih =>
    intro v
    cases v with
    | nil => simp [Python.lexNat]
    | cons y ys =>
      rw [Python.lexNat]
      split_ifs with h1 h2
      · simp
        omega
      · simp
        omega
      · have hxy : x = y := by omega
        subst hxy
        rw [ih]
        simp

theorem lexNat_lt_trans :
    ∀ {u v w : List Nat}, Python.lexNat u v = .lt → Python.lexNat v w = .lt →
      Python.lexNat u w = .lt := by
  intro u
  induction u with
  | nil =>
    intro v w h1 h2
    cases w with
    | nil =>
      cases v with
      | nil => exact absurd h1 (by simp [Python.lexNat])
      | cons y ys => exact absurd h2 (by simp [Python.lexNat])
    | cons z zs => simp [Python.lexNat]
  | cons x xs ih =>
    intro v w h1 h2
    cases v with
    | nil => exact absurd h1 (by simp [Python.lexNat])
    | cons y ys =>
      cases w with
      | nil => exact absurd h2 (by simp [Python.lexNat])
      | cons z zs =>
        rw [Python.lexNat] at h1 h2 ⊢
        rcases lt_trichotomy x y with hxy | hxy | hxy
        · rcases lt_trichotomy y z with hyz | hyz | hyz
          · rw [if_pos (by omega : x < z)]
          · rw [if_pos (by omega : x < z)]
          · rw [if_neg (by omega : ¬ y < z), if_pos hyz] at h2
            exact absurd h2 (by simp)
        · rcases lt_trichotomy y z with hyz | hyz | hyz
          · rw [if_pos (by omega : x < z)]
          · have hxz : ¬ x < z := by omega
            have hzx : ¬ z < x := by omega
            rw [if_neg (by omega : ¬ x < y),
              if_neg (by omega : ¬ y < x)] at h1
            rw [if_neg (by omega : ¬ y < z),
              if_neg (by omega : ¬ z < y)] at h2
            rw [if_neg hxz, if_neg hzx]
            exact ih h1 h2
          · rw [if_neg (by omega : ¬ y < z), if_pos hyz] at h2
            exact absurd h2 (by simp)
        · rw [if_neg (by omega : ¬ x < y), if_pos hxy] at h1
          exact absurd h1 (by simp)

theorem then_swap (x y : Ordering) :
    (x.then y).swap = x.swap.then y.swap := by
  cases x <;> cases y <;> rfl

theorem then_ne_gt_iff {x y : Ordering} :
    x.then y ≠ .gt ↔ x = .lt ∨ (x = .eq ∧ y ≠ .gt) := by
  cases x <;> cases y <;> simp [Ordering.then]

theorem then_eq_lt_iff {x y : Ordering} :
    x.then y = .lt ↔ x = .lt ∨ (x = .eq ∧ y = .lt) := by
  cases x <;> cases y <;> simp [Ordering.then]

theorem then_eq_eq_iff {x y : Ordering} :
    x.then y = .eq ↔ x = .eq ∧ y = .eq := by
  cases x <;> cases y <;> simp [Ordering.then]

theorem cmpN_lt_iff {x y : Nat} : Python.cmpN x y = .lt ↔ x < y := by
  unfold Python.cmpN
  split_ifs <;> simp <;> omega

theorem verCmp_eq_key3 (a b : Python.PyVersion) :
    Python.verCmp a b = Python.key3Cmp (Python.verKey a) (Python.verKey b) :=
  rfl

theorem key3Cmp_swap (p q : List Nat × Nat × Nat) :
    Python.key3Cmp q p = (Python.key3Cmp p q).swap := by
  unfold Python.key3Cmp
  rw [lexNat_swap, cmpN_swap, cmpN_swap p.2.2 q.2.2, then_swap, then_swap]

theorem key3Cmp_eq_iff {p q : List Nat × Nat × Nat} :
    Python.key3Cmp p q = .eq ↔ p = q := by
  unfold Python.key3Cmp
  rw [then_eq_eq_iff, then_eq_eq_iff, lexNat_eq_iff, cmpN_eq_iff, cmpN_eq_iff]
  constructor
  · intro ⟨h1, h2, h3⟩
    exact Prod.ext h1 (Prod.ext h2 h3)
  · intro h
    rw [h]
    exact ⟨rfl, rfl, rfl⟩

theorem pair2_lt_trans {a1 a2 b1 b2 c1 c2 : Nat}
    (h1 : (Python.cmpN a1 b1).then (Python.cmpN a2 b2) = .lt)
    (h2 : (Python.cmpN b1 c1).then (Python.cmpN b2 c2) = .lt) :
    (Python.cmpN a1 c1).then (Python.cmpN a2 c2) = .lt := by
  rw [then_eq_lt_iff, cmpN_lt_iff, cmpN_lt_iff, cmpN_eq_iff] at h1 h2 ⊢
  omega

theorem key3Cmp_lt_trans {p q r : List Nat × Nat × Nat}
    (h1 : Python.key3Cmp p q = .lt) (h2 : Python.key3Cmp q r = .lt) :
    Python.key3Cmp p r = .lt := by
  unfold Python.key3Cmp at h1 h2 ⊢
  rw [then_eq_lt_iff] at h1 h2 ⊢
  rcases h1 with h1 | ⟨h1e, h1r⟩
  · rcases h2 with h2 | ⟨h2e, h2r⟩
    · exact Or.inl (lexNat_lt_trans h1 h2)
    · rw [lexNat_eq_iff] at h2e
      rw [← h2e]
      exact Or.inl h1
  · rcases h2 with h2 | ⟨h2e, h2r⟩
    · rw [lexNat_eq_iff] at h1e
      rw [h1e]
      exact Or.inl h2
    · rw [lexNat_eq_iff] at h1e h2e
      refine Or.inr ⟨by rw [h1e, h2e, lexNat_eq_iff], ?_⟩
      exact pair2_lt_trans h1r h2r

theorem key3Cmp_refl (p : List Nat × Nat × Nat) :
    Python.key3Cmp p p = .eq :=
  key3Cmp_eq_iff.mpr rfl

theorem finCmp_swap (a b : Python.PythonVersion) :
    Python.finCmp b a = (Python.finCmp a b).swap := by
  unfold Python.finCmp
  rw [verCmp_eq_key3, verCmp_eq_key3, key3Cmp_swap, cmpN_swap, then_swap]

instance : IsTotal Python.PythonVersion Python.finLe := by
  constructor
  intro a b
  unfold Python.finLe
  by_cases h : Python.finCmp a b = .gt
  · right
    rw [finCmp_swap, h]
    simp [Ordering.swap]
  · exact Or.inl h

instance : IsTrans Python.PythonVersion Python.finLe := by
  constructor
  intro a b c h1 h2
  unfold Python.finLe Python.finCmp at h1 h2 ⊢
  rw [verCmp_eq_key3] at h1 h2 ⊢
  rw [then_ne_gt_iff] at h1 h2 ⊢
  rcases h1 with h1 | ⟨h1e, h1r⟩
  · rcases h2 with h2 | ⟨h2e, h2r⟩
    · exact Or.inl (key3Cmp_lt_trans h2 h1)
    · rw [key3Cmp_eq_iff] at h2e
      rw [h2e]
      exact Or.inl h1
  · rcases h2 with h2 | ⟨h2e, h2r⟩
    · rw [key3Cmp_eq_iff] at h1e
      rw [← h1e]
      exact Or.inl h2
    · rw [key3Cmp_eq_iff] at h1e h2e
      refine Or.inr ⟨?_, ?_⟩
      · rw [key3Cmp_eq_iff, h2e, h1e]
      · rw [cmpN_ne_gt_iff] at h1r h2r ⊢
        omega

instance : IsTotal Python.PythonVersion Python.preLe := by
  constructor
  intro a b
  unfold Python.preLe
  omega

instance : IsTrans Python.PythonVersion Python.preLe := by
  constructor
  intro a b c h1 h2
  unfold Python.preLe at h1 h2 ⊢
  omega

/-! ### Sublist order utilities -/

theorem pair_sublist_or {α : Type} :
    ∀ {l : List α} {a b : α}, a ∈ l → b ∈ l → a ≠ b →
      List.Sublist [a, b] l ∨ List.Sublist [b, a] l := by
  intro l
  induction l with
  | nil =>
    intro a b ha
    exact absurd ha (List.not_mem_nil a)
  | cons x t ih =>
    intro a b ha hb hne
    by_cases hax : a = x
    · subst hax
      have hbt : b ∈ t := by
        rcases List.mem_cons.mp hb with h | h
        · exact absurd h.symm hne
        · exact h
      exact Or.inl (List.Sublist.cons₂ a (List.singleton_sublist.mpr hbt))
    · by_cases hbx : b = x
      · subst hbx
        have hat : a ∈ t := by
          rcases List.mem_cons.mp ha with h | h
          · exact absurd h hax
          · exact h
        exact Or.inr (List.Sublist.cons₂ b (List.singleton_sublist.mpr hat))
      · have hat : a ∈ t := by
          rcases List.mem_cons.mp ha with h | h
          · exact absurd h hax
          · exact h
        have hbt : b ∈ t := by
          rcases List.mem_cons.mp hb with h | h
          · exact absurd h hbx
          · exact h
        rcases ih hat hbt hne with h | h
        · exact Or.inl (h.cons x)
        · exact Or.inr (h.cons x)

theorem pair_sublist_antisymm {α : Type} :
    ∀ {l : List α} {a b : α},
      List.Sublist [a, b] l → List.Sublist [b, a] l → l.Nodup → a = b := by
  intro l
  induction l with
  | nil =>
    intro a b hab
    cases hab
  | cons x t ih =>
    intro a b hab hba hnd
    have hxn : x ∉ t := (List.nodup_cons.mp hnd).1
    have hndt : t.Nodup := (List.nodup_cons.mp hnd).2
    cases hab with
    | cons _ hab2 =>
      cases hba with
      | cons _ hba2 => exact ih hab2 hba2 hndt
      | cons₂ _ hba2 =>
        have : x ∈ t := hab2.subset (by simp)
        exact absurd this hxn
    | cons₂ _ hab2 =>
      cases hba with
      | cons _ hba2 =>
        have : x ∈ t := hba2.subset (by simp)
        exact absurd this hxn
      | cons₂ _ hba2 => rfl

theorem nodup_no_pair_self {α : Type} [DecidableEq α] {l : List α} {a : α}
    (hnd : l.Nodup) : ¬ List.Sublist [a, a] l := by
  intro h
  have hc := h.count_le a
  rw [List.nodup_iff_count_le_one] at hnd
  have := hnd a
  simp at hc
  omega

theorem eq_of_perm_of_pair_sublists {α : Type} :
    ∀ {g out : List α}, g.Perm out → out.Nodup →
      (∀ a b : α, List.Sublist [a, b] g → List.Sublist [a, b] out) →
      g = out := by
  intro g
  induction g with
  | nil =>
    intro out hperm _ _
    exact (hperm.symm.eq_nil).symm
  | cons a g2 ih =>
    intro out hperm hnd hpairs
    cases out with
    | nil => exact absurd hperm.eq_nil (by simp)
    | cons o out2 =>
      have hae : a = o := by
        by_contra hne
        have hog : o ∈ a :: g2 := hperm.mem_iff.mpr (List.mem_cons_self o out2)
        have hog2 : o ∈ g2 := by
          rcases List.mem_cons.mp hog with h | h
          · exact absurd h.symm hne
          · exact h
        have hpair : List.Sublist [a, o] (a :: g2) :=
          List.Sublist.cons₂ a (List.singleton_sublist.mpr hog2)
        have := hpairs a o hpair
        cases this with
        | cons _ h2 =>
          have : o ∈ out2 := h2.subset (by simp)
          exact absurd this (List.nodup_cons.mp hnd).1
        | cons₂ _ h2 => exact hne rfl
      subst hae
      have hperm2 : g2.Perm out2 := hperm.cons_inv
      have hnd2 : out2.Nodup := (List.nodup_cons.mp hnd).2
      rw [ih hperm2 hnd2 ?_]
      intro x y hxy
      have hx : List.Sublist [x, y] (a :: g2) := hxy.cons a
      have := hpairs x y hx
      cases this with
      | cons _ h2 => exact h2
      | cons₂ _ h2 =>
        have hxg : a ∈ g2 := hxy.subset (by simp)
        have hgnd : (a :: g2).Nodup := (List.Perm.nodup_iff hperm).mpr hnd
        exact absurd hxg (List.nodup_cons.mp hgnd).1

/-- Sorting by `r` is unchanged by an interleaved stable re-sort under `s`,
provided the input was `s`-sorted and duplicate-free: the per-pair relative
order of `r`-ties is pinned down by the `s` order on both passes. -/
theorem sort_idem_core {α : Type} (r s : α → α → Prop) [DecidableEq α]
    [DecidableRel r] [DecidableRel s] [IsTotal α r] [IsTrans α r]
    [IsTotal α s] [IsTrans α s] {vals : List α}
    (hnd : vals.Nodup) (hs : vals.Pairwise s) :
    List.insertionSort r (List.insertionSort s (List.insertionSort r vals))
      = List.insertionSort r vals := by
  set out := List.insertionSort r vals with hout
  set m := List.insertionSort s out with hm
  set g := List.insertionSort r m with hg
  have hpo : out.Perm vals := List.perm_insertionSort r vals
  have hpm : m.Perm out := List.perm_insertionSort s out
  have hpg : g.Perm m := List.perm_insertionSort r m
  have hgo : g.Perm out := hpg.trans hpm
  have hndo : out.Nodup := hpo.nodup_iff.mpr hnd
  have hndm : m.Nodup := hpm.nodup_iff.mpr hndo
  have hndg : g.Nodup := hgo.nodup_iff.mpr hndo
  have hsg : g.Pairwise r := List.sorted_insertionSort r m
  have hso : out.Pairwise r := List.sorted_insertionSort r vals
  have hsm : m.Pairwise s := List.sorted_insertionSort s out
  refine eq_of_perm_of_pair_sublists hgo hndo ?_
  intro a b habg
  have hne : a ≠ b := by
    rintro rfl
    exact nodup_no_pair_self hndg habg
  have hamo : a ∈ out := hgo.mem_iff.mp (habg.subset (by simp))
  have hbmo : b ∈ out := hgo.mem_iff.mp (habg.subset (by simp))
  have hrab : r a b := List.pairwise_iff_forall_sublist.mp hsg habg
  rcases pair_sublist_or hamo hbmo hne with hho | hho
  · exact hho
  · exfalso
    have hrba : r b a := List.pairwise_iff_forall_sublist.mp hso hho
    have hamm : a ∈ m := hpm.mem_iff.mpr hamo
    have hbmm : b ∈ m := hpm.mem_iff.mpr hbmo
    rcases pair_sublist_or hbmm hamm (fun hba => hne hba.symm) with hhm | hhm
    · have hbag : List.Sublist [b, a] g :=
        List.pair_sublist_insertionSort hrba hhm
      exact hne (pair_sublist_antisymm habg hbag hndg)
    · have hsab : s a b := List.pairwise_iff_forall_sublist.mp hsm hhm
      by_cases hsba : s b a
      · have hbam : List.Sublist [b, a] m :=
          List.pair_sublist_insertionSort hsba hho
        exact hne (pair_sublist_antisymm hhm hbam hndm)
      · have hamv : a ∈ vals := hpo.mem_iff.mp hamo
        have hbmv : b ∈ vals := hpo.mem_iff.mp hbmo
        rcases pair_sublist_or hamv hbmv hne with hhv | hhv
        · have habo : List.Sublist [a, b] out :=
            List.pair_sublist_insertionSort hrab hhv
          exact hne (pair_sublist_antisymm habo hho hndo)
        · exact hsba (List.pairwise_iff_forall_sublist.mp hs hhv)

/-! ### Claim C8 -/

/-- Under the insertion-order determinization of the map iteration
(`it = id`), the stage reproduces its own output exactly: the output's keys
are pairwise distinct, so the second collapse retains everything, and the
second pre-sort's reshuffling of the final ranking is undone by the stable
final sort because the first run's output resolves every ranking tie in
pre-sort order. -/
theorem deduplicate_insertion_idem :
    ∀ (f : Python.Finder) (l out : List Python.PythonVersion),
      Python.deduplicate f l = some out →
      Python.deduplicate f out = some out := by
  intro f l out h
  cases hak : Python.all_keys f (List.insertionSort Python.preLe l) with
  | none =>
    unfold Python.deduplicate at h
    rw [hak] at h
    exact absurd h (by simp)
  | some keyed =>
    have h1 : Python.dedupRank ((Python.dedup_first keyed).map Prod.snd)
        = some out := by
      rw [← deduplicate_eq hak]
      exact h
    have hout : out = List.insertionSort Python.finLe
        ((Python.dedup_first keyed).map Prod.snd) := dedupRank_some h1
    have hguard : ¬ (2 ≤ ((Python.dedup_first keyed).map Prod.snd).length
        ∧ ((Python.dedup_first keyed).map Prod.snd).any
            (fun c => c.version.isNone) = true) := by
      intro hg
      unfold Python.dedupRank at h1
      rw [if_pos hg] at h1
      exact absurd h1 (by simp)
    have hkeys : ∀ c ∈ (Python.dedup_first keyed).map Prod.snd,
        (Python.deduplicate_key f c).isSome = true := by
      intro c hc
      obtain ⟨p, hp, hpc⟩ := List.mem_map.mp hc
      have hp2 : p ∈ keyed := (dedup_first_aux_sublist [] keyed).subset hp
      have hk := all_keys_pairs hak p hp2
      rw [← hpc, hk]
      rfl
    have hkd : ((Python.dedup_first keyed).map Prod.snd).Pairwise
        (fun a b => Python.deduplicate_key f a
          ≠ Python.deduplicate_key f b) := by
      rw [List.pairwise_map]
      refine (dedup_first_aux_nodup_keys [] keyed).imp_of_mem ?_
      intro p q hp hq hne heq
      have hp2 : p ∈ keyed := (dedup_first_aux_sublist [] keyed).subset hp
      have hq2 : q ∈ keyed := (dedup_first_aux_sublist [] keyed).subset hq
      have h1k := all_keys_pairs hak p hp2
      have h2k := all_keys_pairs hak q hq2
      rw [h1k, h2k] at heq
      exact hne (Option.some.inj heq)
    have hndvals : ((Python.dedup_first keyed).map Prod.snd).Nodup := by
      refine hkd.imp ?_
      intro a b hab heq
      exact hab (by rw [heq])
    have hprevals : ((Python.dedup_first keyed).map Prod.snd).Pairwise
        Python.preLe := by
      have hsub : List.Sublist ((Python.dedup_first keyed).map Prod.snd)
          (keyed.map Prod.snd) :=
        (dedup_first_aux_sublist [] keyed).map Prod.snd
      rw [all_keys_map_snd hak] at hsub
      exact List.Pairwise.sublist hsub
        (List.sorted_insertionSort Python.preLe l)
    have hmem2 : ∀ c ∈ List.insertionSort Python.preLe out,
        (Python.deduplicate_key f c).isSome = true := by
      intro c hc
      have hc2 : c ∈ out := (List.mem_insertionSort Python.preLe).mp hc
      rw [hout] at hc2
      exact hkeys c ((List.mem_insertionSort Python.finLe).mp hc2)
    obtain ⟨keyed2, hak2⟩ := all_keys_isSome hmem2
    have hsnd2 : keyed2.map Prod.snd = List.insertionSort Python.preLe out :=
      all_keys_map_snd hak2
    have hperm_chain : (List.insertionSort Python.preLe out).Perm
        ((Python.dedup_first keyed).map Prod.snd) := by
      refine (List.perm_insertionSort _ _).trans ?_
      rw [hout]
      exact List.perm_insertionSort _ _
    have hkd2m : (List.insertionSort Python.preLe out).Pairwise
        (fun a b => Python.deduplicate_key f a
          ≠ Python.deduplicate_key f b) := by
      refine (List.Perm.pairwise_iff ?_ hperm_chain).mpr hkd
      intro x y hxy heq
      exact hxy heq.symm
    have hkd2 : keyed2.Pairwise (fun p q => p.1 ≠ q.1) := by
      rw [← hsnd2] at hkd2m
      refine (List.pairwise_map.mp hkd2m).imp_of_mem ?_
      intro p q hp hq hne heq
      have h1k := all_keys_pairs hak2 p hp
      have h2k := all_keys_pairs hak2 q hq
      exact hne (by rw [h1k, h2k, heq])
    have hdf2 : Python.dedup_first keyed2 = keyed2 := by
      unfold Python.dedup_first
      exact dedup_first_aux_id [] keyed2
        (fun p _ => List.not_mem_nil p.1) hkd2
    have hrun2 : Python.deduplicate f out
        = Python.dedupRank (List.insertionSort Python.preLe out) := by
      rw [deduplicate_eq hak2, hdf2, hsnd2]
    have hguard2 : ¬ (2 ≤ (List.insertionSort Python.preLe out).length
        ∧ (List.insertionSort Python.preLe out).any
            (fun c => c.version.isNone) = true) := by
      intro hg
      refine hguard ⟨?_, ?_⟩
      · rw [← hperm_chain.length_eq]
        exact hg.1
      · obtain ⟨v, hv, hnone⟩ := List.any_eq_true.mp hg.2
        exact List.any_eq_true.mpr ⟨v, hperm_chain.mem_iff.mp hv, hnone⟩
    rw [hrun2]
    unfold Python.dedupRank
    rw [if_neg hguard2]
    rw [Option.some.injEq, hout]
    exact sort_idem_core Python.finLe Python.preLe hndvals hprevals


theorem deduplicate_iter_none {f : Python.Finder}
    {it : List (String × Python.PythonVersion)
      → List (String × Python.PythonVersion)}
    {l : List Python.PythonVersion}
    (h : Python.all_keys f (List.insertionSort Python.preLe l) = none) :
    Python.deduplicate_iter f it l = none := by
  unfold Python.deduplicate_iter
  rw [h]

theorem deduplicate_iter_eq {f : Python.Finder}
    {it : List (String × Python.PythonVersion)
      → List (String × Python.PythonVersion)}
    {l : List Python.PythonVersion}
    {keyed : List (String × Python.PythonVersion)}
    (h : Python.all_keys f (List.insertionSort Python.preLe l)
      = some keyed) :
    Python.deduplicate_iter f it l
      = Python.dedupRank ((it (Python.dedup_first keyed)).map Prod.snd) := by
  unfold Python.deduplicate_iter
  rw [h]

/-- Whatever orders the two map iterations yield, a second run of the
stage on the first run's output returns a permutation of that output,
again sorted by the final ranking: the collapse retains everything (the
output's keys are pairwise distinct) and all the sorts only permute. -/
theorem deduplicate_iter_perm_idem :
    ∀ (f : Python.Finder)
      (it1 it2 : List (String × Python.PythonVersion)
        → List (String × Python.PythonVersion))
      (l out1 out2 : List Python.PythonVersion),
      (∀ ps, (it1 ps).Perm ps) → (∀ ps, (it2 ps).Perm ps) →
      Python.deduplicate_iter f it1 l = some out1 →
      Python.deduplicate_iter f it2 out1 = some out2 →
      out2.Perm out1 ∧ List.Pairwise Python.finLe out2 := by
  intro f it1 it2 l out1 out2 hit1 hit2 h1 h2
  cases hak : Python.all_keys f (List.insertionSort Python.preLe l) with
  | none =>
    rw [deduplicate_iter_none hak] at h1
    exact absurd h1 (by simp)
  | some keyed =>
    rw [deduplicate_iter_eq hak] at h1
    have hout1 : out1 = List.insertionSort Python.finLe
        ((it1 (Python.dedup_first keyed)).map Prod.snd) := dedupRank_some h1
    have hkd : ((Python.dedup_first keyed).map Prod.snd).Pairwise
        (fun a b => Python.deduplicate_key f a
          ≠ Python.deduplicate_key f b) := by
      rw [List.pairwise_map]
      refine (dedup_first_aux_nodup_keys [] keyed).imp_of_mem ?_
      intro p q hp hq hne heq
      have hp2 : p ∈ keyed := (dedup_first_aux_sublist [] keyed).subset hp
      have hq2 : q ∈ keyed := (dedup_first_aux_sublist [] keyed).subset hq
      have h1k := all_keys_pairs hak p hp2
      have h2k := all_keys_pairs hak q hq2
      rw [h1k, h2k] at heq
      exact hne (Option.some.inj heq)
    have hpo1 : out1.Perm ((Python.dedup_first keyed).map Prod.snd) := by
      rw [hout1]
      exact (List.perm_insertionSort _ _).trans
        ((hit1 (Python.dedup_first keyed)).map Prod.snd)
    have hkd1 : out1.Pairwise
        (fun a b => Python.deduplicate_key f a
          ≠ Python.deduplicate_key f b) := by
      refine (List.Perm.pairwise_iff ?_ hpo1).mpr hkd
      intro x y hxy heq
      exact hxy heq.symm
    cases hak2 : Python.all_keys f (List.insertionSort Python.preLe out1)
      with
    | none =>
      rw [deduplicate_iter_none hak2] at h2
      exact absurd h2 (by simp)
    | some keyed2 =>
      rw [deduplicate_iter_eq hak2] at h2
      have hout2 : out2 = List.insertionSort Python.finLe
          ((it2 (Python.dedup_first keyed2)).map Prod.snd) :=
        dedupRank_some h2
      have hsnd2 : keyed2.map Prod.snd
          = List.insertionSort Python.preLe out1 := all_keys_map_snd hak2
      have hkd2m : (List.insertionSort Python.preLe out1).Pairwise
          (fun a b => Python.deduplicate_key f a
            ≠ Python.deduplicate_key f b) := by
        refine (List.Perm.pairwise_iff ?_
          (List.perm_insertionSort Python.preLe out1)).mpr hkd1
        intro x y hxy heq
        exact hxy heq.symm
      have hkd2 : keyed2.Pairwise (fun p q => p.1 ≠ q.1) := by
        rw [← hsnd2] at hkd2m
        refine (List.pairwise_map.mp hkd2m).imp_of_mem ?_
        intro p q hp hq hne heq
        have h1k := all_keys_pairs hak2 p hp
        have h2k := all_keys_pairs hak2 q hq
        exact hne (by rw [h1k, h2k, heq])
      have hdf2 : Python.dedup_first keyed2 = keyed2 := by
        unfold Python.dedup_first
        exact dedup_first_aux_id [] keyed2
          (fun p _ => List.not_mem_nil p.1) hkd2
      constructor
      · rw [hout2]
        refine (List.perm_insertionSort _ _).trans ?_
        refine ((hit2 (Python.dedup_first keyed2)).map Prod.snd).trans ?_
        rw [hdf2, hsnd2]
        exact List.perm_insertionSort _ _
      · rw [hout2]
        exact List.sorted_insertionSort _ _

/-! ### Claim C8 -/

/-- Claim C8 (corrected): the deduplicate-and-rank stage is idempotent
only up to the ordering of ranking ties.  The program's `HashMap` yields
its retained values in an arbitrary per-instance order, so for every pair
of iteration schedules (functions that permute the retained entries),
running the stage on its own output returns a permutation of that output,
again sorted by the final ranking — but not necessarily the identical
list, because the stable final sort preserves whatever order the map
handed over for candidates tied on (version, path length).  Under the
deterministic insertion-order iteration (`deduplicate` itself) the output
is reproduced exactly. -/
theorem C8_dedup_rank_idempotent :
    (∀ (f : Python.Finder)
      (it1 it2 : List (String × Python.PythonVersion)
        → List (String × Python.PythonVersion))
      (l out1 out2 : List Python.PythonVersion),
      (∀ ps, (it1 ps).Perm ps) → (∀ ps, (it2 ps).Perm ps) →
      Python.deduplicate_iter f it1 l = some out1 →
      Python.deduplicate_iter f it2 out1 = some out2 →
      out2.Perm out1 ∧ List.Pairwise Python.finLe out2)
    ∧ (∀ (f : Python.Finder) (l out : List Python.PythonVersion),
        Python.deduplicate f l = some out →
        Python.deduplicate f out = some out) :=
  ⟨deduplicate_iter_perm_idem, deduplicate_insertion_idem⟩

/-- Witness for C8: a concrete three-candidate run (two sharing a
deduplication key), first under explicit identity iteration schedules —
the second run permutes (here: reproduces) the first output and leaves it
ranking-sorted — then under the insertion-order model, where the output is
reproduced exactly. -/
theorem C8_dedup_rank_idempotent_witness :
    (([Python.samplePy "/usr/local/bin/python3.12"
          (some ⟨[3, 12, 1], false, false⟩) none,
        Python.samplePy "/usr/bin/python3"
          (some ⟨[3, 11], false, false⟩) none]
        : List Python.PythonVersion).Perm
      [Python.samplePy "/usr/local/bin/python3.12"
          (some ⟨[3, 12, 1], false, false⟩) none,
        Python.samplePy "/usr/bin/python3"
          (some ⟨[3, 11], false, false⟩) none]
      ∧ List.Pairwise Python.finLe
        [Python.samplePy "/usr/local/bin/python3.12"
            (some ⟨[3, 12, 1], false, false⟩) none,
          Python.samplePy "/usr/bin/python3"
            (some ⟨[3, 11], false, false⟩) none])
    ∧ Python.deduplicate
        { resolve_symlinks := false, same_file := true,
          same_interpreter := true }
        [Python.samplePy "/usr/local/bin/python3.12"
            (some ⟨[3, 12, 1], false, false⟩) none,
          Python.samplePy "/usr/bin/python3"
            (some ⟨[3, 11], false, false⟩) none]
      = some [Python.samplePy "/usr/local/bin/python3.12"
            (some ⟨[3, 12, 1], false, false⟩) none,
          Python.samplePy "/usr/bin/python3"
            (some ⟨[3, 11], false, false⟩) none] :=
  ⟨C8_dedup_rank_idempotent.1
      { resolve_symlinks := false, same_file := true,
        same_interpreter := true }
      (fun ps => ps) (fun ps => ps)
      [Python.samplePy "/usr/local/bin/python3.12"
          (some ⟨[3, 12, 1], false, false⟩) none,
        Python.samplePy "/usr/bin/python3"
          (some ⟨[3, 11], false, false⟩) none,
        Python.samplePy "/usr/bin/python3"
          (some ⟨[3, 11], false, false⟩) none]
      [Python.samplePy "/usr/local/bin/python3.12"
          (some ⟨[3, 12, 1], false, false⟩) none,
        Python.samplePy "/usr/bin/python3"
          (some ⟨[3, 11], false, false⟩) none]
      [Python.samplePy "/usr/local/bin/python3.12"
          (some ⟨[3, 12, 1], false, false⟩) none,
        Python.samplePy "/usr/bin/python3"
          (some ⟨[3, 11], false, false⟩) none]
      (fun ps => List.Perm.refl ps) (fun ps => List.Perm.refl ps)
      (by decide) (by decide),
    C8_dedup_rank_idempotent.2
      { resolve_symlinks := false, same_file := true,
        same_interpreter := true }
      [Python.samplePy "/usr/local/bin/python3.12"
          (some ⟨[3, 12, 1], false, false⟩) none,
        Python.samplePy "/usr/bin/python3"
          (some ⟨[3, 11], false, false⟩) none,
        Python.samplePy "/usr/bin/python3"
          (some ⟨[3, 11], false, false⟩) none]
      [Python.samplePy "/usr/local/bin/python3.12"
          (some ⟨[3, 12, 1], false, false⟩) none,
        Python.samplePy "/usr/bin/python3"
          (some ⟨[3, 11], false, false⟩) none]
      (by decide)⟩

/-- Counterexample for the original C8: two candidates at distinct paths
of equal length with the same resolved version tie under the final
ranking.  With the map iteration in insertion order the stage maps the
pair to itself, but a run over the very same output whose map yields the
two retained entries reversed — a legal `HashMap` order — returns the
reversed list: the stage does not guarantee the identical output, only a
permutation. -/
theorem C8_dedup_rank_idempotent_counterexample :
    Python.deduplicate_iter
        { resolve_symlinks := false, same_file := true,
          same_interpreter := true }
        (fun ps => ps)
        [Python.samplePy "/a/python3" (some ⟨[3, 11], false, false⟩) none,
          Python.samplePy "/b/python3" (some ⟨[3, 11], false, false⟩) none]
      = some [Python.samplePy "/a/python3"
            (some ⟨[3, 11], false, false⟩) none,
          Python.samplePy "/b/python3" (some ⟨[3, 11], false, false⟩) none]
    ∧ Python.deduplicate_iter
        { resolve_symlinks := false, same_file := true,
          same_interpreter := true }
        List.reverse
        [Python.samplePy "/a/python3" (some ⟨[3, 11], false, false⟩) none,
          Python.samplePy "/b/python3" (some ⟨[3, 11], false, false⟩) none]
      = some [Python.samplePy "/b/python3"
            (some ⟨[3, 11], false, false⟩) none,
          Python.samplePy "/a/python3" (some ⟨[3, 11], false, false⟩) none]
    ∧ (List.reverse [("/a/python3",
          Python.samplePy "/a/python3" (some ⟨[3, 11], false, false⟩) none),
        ("/b/python3",
          Python.samplePy "/b/python3"
            (some ⟨[3, 11], false, false⟩) none)]).Perm
        [("/a/python3",
          Python.samplePy "/a/python3" (some ⟨[3, 11], false, false⟩) none),
        ("/b/python3",
          Python.samplePy "/b/python3"
            (some ⟨[3, 11], false, false⟩) none)]
    ∧ [Python.samplePy "/b/python3" (some ⟨[3, 11], false, false⟩) none,
        Python.samplePy "/a/python3" (some ⟨[3, 11], false, false⟩) none]
      ≠ [Python.samplePy "/a/python3" (some ⟨[3, 11], false, false⟩) none,
        Python.samplePy "/b/python3" (some ⟨[3, 11], false, false⟩) none] :=
  ⟨by decide, by decide, List.reverse_perm _, by decide⟩
